import Mathlib

/-!
Verification of the employee-hierarchy application (`app.py`).

The development shallowly embeds the two classes of the source:

* `Employee` — record with `id`, `first_name`, `salary`, `manager`
  (Python `None` becomes `Option.none`).  The mutable `employees`
  field of the Python object is modelled separately, as a table of
  report lists indexed by position (see `Reports`), because report
  lists are populated by mutation during `Staff.__init__`.
* `Staff` — `mkStaff` performs the constructor's work: the in-place
  name sort, the root computation, and the recursive
  `__generateHierarchy`.  Python recursion that never terminates ends
  in a `RecursionError`; the embedding makes the recursion depth
  explicit with a fuel argument and returns `none` exactly when the
  recursion exceeds every finite depth (fuel `length + 1` is enough
  for any terminating run, since a terminating run never revisits an
  index on one descending chain).  `generateHierarchy` additionally
  returns the trace of indices visited as "current" employees, in
  order; this ghost output does not influence the computed state.

Python's `list.sort(key=...)` is a stable sort by the key; stable
sorts by the same key are unique, so it is embedded as a stable
insertion sort (`sortKey`).  Python string comparison on `str` is
lexicographic by code point, embedded as `lexLt` on the code-point
lists underlying `String`.
-/

/-- Python `<` on `str`: lexicographic comparison by code point. -/
def lexLt : List Char → List Char → Bool
  | [], [] => false
  | [], _ :: _ => true
  | _ :: _, [] => false
  | a :: as, b :: bs => if a < b then true else if b < a then false else lexLt as bs

/-- String form of `lexLt`, acting on the underlying character lists. -/
def strLt (a b : String) : Bool := lexLt a.data b.data

theorem lexLt_irrefl (l : List Char) : lexLt l l = false := by
  induction l with
  | nil => rfl
  | cons a as ih => simp [lexLt, lt_irrefl, ih]

theorem lexLt_nil_right (l : List Char) : lexLt l [] = false := by
  cases l <;> rfl

theorem lexLt_asymm (a b : List Char) (h : lexLt a b = true) : lexLt b a = false := by
  induction a generalizing b with
  | nil => exact lexLt_nil_right b
  | cons x xs ih =>
    cases b with
    | nil => rw [lexLt_nil_right] at h; cases h
    | cons y ys =>
      simp only [lexLt] at h ⊢
      by_cases hxy : x < y
      · have hyx : ¬ y < x := lt_asymm hxy
        simp [hxy, hyx]
      · by_cases hyx : y < x
        · simp [hxy, hyx] at h
        · simp only [hxy, hyx, if_false] at h ⊢
          exact ih ys h

theorem lexLt_le_of_le (a b c : List Char) (h1 : lexLt b a = false)
    (h2 : lexLt c b = false) : lexLt c a = false := by
  induction a generalizing b c with
  | nil => exact lexLt_nil_right c
  | cons x xs ih =>
    cases b with
    | nil => simp [lexLt] at h1
    | cons y ys =>
      cases c with
      | nil => simp [lexLt] at h2
      | cons z zs =>
        simp only [lexLt] at h1 h2 ⊢
        by_cases hyx : y < x
        · simp [hyx] at h1
        · by_cases hzy : z < y
          · simp [hzy] at h2
          · have hxy : x ≤ y := le_of_not_lt hyx
            have hyz : y ≤ z := le_of_not_lt hzy
            have hzx : ¬ z < x := not_lt.mpr (hxy.trans hyz)
            simp only [hyx, hzy, hzx, if_false] at h1 h2 ⊢
            by_cases hxz : x < z
            · simp [hxz]
            · have hzx' : z ≤ x := le_of_not_lt hxz
              have hxzeq : x = z := le_antisymm (hxy.trans hyz) hzx'
              have hxyeq : x = y := le_antisymm hxy (hyz.trans hzx')
              rw [← hxyeq] at h1
              rw [← hxzeq] at h2 ⊢
              rw [← hxyeq] at h2
              simp only [lt_irrefl, if_false] at h1 h2 ⊢
              exact ih ys zs h1 h2

/-- Stable insertion used to model Python's stable `list.sort(key=...)`:
an element is placed after every earlier element whose key is strictly
smaller, hence after all earlier elements with an equal key. -/
def insertKey {α : Type} (f : α → String) (x : α) : List α → List α
  | [] => [x]
  | y :: ys => if strLt (f y) (f x) then y :: insertKey f x ys else x :: y :: ys

/-- Stable sort by a `String` key, modelling `list.sort(key=...)`. -/
def sortKey {α : Type} (f : α → String) : List α → List α
  | [] => []
  | x :: xs => insertKey f x (sortKey f xs)

theorem insertKey_perm {α : Type} (f : α → String) (x : α) (l : List α) :
    (insertKey f x l).Perm (x :: l) := by
  induction l with
  | nil => exact List.Perm.refl _
  | cons y ys ih =>
    simp only [insertKey]
    by_cases h : strLt (f y) (f x) = true
    · simp only [h, if_true]
      exact (ih.cons y).trans (List.Perm.swap x y ys)
    · simp only [h, if_false]
      exact List.Perm.refl _

theorem sortKey_perm {α : Type} (f : α → String) (l : List α) :
    (sortKey f l).Perm l := by
  induction l with
  | nil => exact List.Perm.refl _
  | cons x xs ih =>
    exact (insertKey_perm f x (sortKey f xs)).trans (ih.cons x)

theorem insertKey_pairwise {α : Type} (f : α → String) (x : α) (l : List α)
    (h : l.Pairwise (fun a b => strLt (f b) (f a) = false)) :
    (insertKey f x l).Pairwise (fun a b => strLt (f b) (f a) = false) := by
  induction l with
  | nil => simp [insertKey]
  | cons y ys ih =>
    rw [List.pairwise_cons] at h
    obtain ⟨hy, hys⟩ := h
    cases hc : strLt (f y) (f x) with
    | true =>
      have hstep : insertKey f x (y :: ys) = y :: insertKey f x ys := by
        simp [insertKey, hc]
      rw [hstep, List.pairwise_cons]
      refine ⟨?_, ih hys⟩
      intro z hz
      rcases List.mem_cons.mp ((insertKey_perm f x ys).mem_iff.mp hz) with rfl | hzys
      · exact lexLt_asymm _ _ hc
      · exact hy z hzys
    | false =>
      have hstep : insertKey f x (y :: ys) = x :: y :: ys := by
        simp [insertKey, hc]
      rw [hstep, List.pairwise_cons]
      refine ⟨?_, List.pairwise_cons.mpr ⟨hy, hys⟩⟩
      intro z hz
      rcases List.mem_cons.mp hz with rfl | hzys
      · exact hc
      · exact lexLt_le_of_le _ _ _ hc (hy z hzys)

theorem sortKey_pairwise {α : Type} (f : α → String) (l : List α) :
    (sortKey f l).Pairwise (fun a b => strLt (f b) (f a) = false) := by
  induction l with
  | nil => simp [sortKey]
  | cons x xs ih => exact insertKey_pairwise f x _ ih

theorem insertKey_of_le {α : Type} (f : α → String) (x : α) (l : List α)
    (h : ∀ y ∈ l, strLt (f y) (f x) = false) : insertKey f x l = x :: l := by
  cases l with
  | nil => rfl
  | cons y ys => simp [insertKey, h y (List.mem_cons_self y ys)]

theorem sortKey_of_pairwise {α : Type} (f : α → String) (l : List α)
    (h : l.Pairwise (fun a b => strLt (f b) (f a) = false)) : sortKey f l = l := by
  induction l with
  | nil => rfl
  | cons x xs ih =>
    rw [List.pairwise_cons] at h
    obtain ⟨hx, hxs⟩ := h
    simp only [sortKey, ih hxs]
    exact insertKey_of_le f x xs (fun y hy => hx y hy)

theorem sortKey_idem {α : Type} (f : α → String) (l : List α) :
    sortKey f (sortKey f l) = sortKey f l :=
  sortKey_of_pairwise f _ (sortKey_pairwise f l)

theorem insertKey_filter {α : Type} (f : α → String) (x : α) (l : List α) (nm : String) :
    (insertKey f x l).filter (fun a => f a == nm) =
      if f x == nm then x :: l.filter (fun a => f a == nm)
      else l.filter (fun a => f a == nm) := by
  induction l with
  | nil =>
    simp only [insertKey, List.filter]
    by_cases h : f x == nm <;> simp [h]
  | cons y ys ih =>
    cases hc : strLt (f y) (f x) with
    | true =>
      have hstep : insertKey f x (y :: ys) = y :: insertKey f x ys := by
        simp [insertKey, hc]
      rw [hstep]
      by_cases hx : f x = nm
      · have hy : ¬ f y = nm := by
          intro hfy
          rw [hfy, ← hx, strLt, lexLt_irrefl] at hc
          cases hc
        simp [List.filter_cons, hx, hy, ih]
      · simp [List.filter_cons, hx, ih]
    | false =>
      have hstep : insertKey f x (y :: ys) = x :: y :: ys := by
        simp [insertKey, hc]
      rw [hstep]
      by_cases hx : f x = nm <;> simp [List.filter_cons, hx]

theorem sortKey_filter {α : Type} (f : α → String) (l : List α) (nm : String) :
    (sortKey f l).filter (fun a => f a == nm) = l.filter (fun a => f a == nm) := by
  induction l with
  | nil => rfl
  | cons x xs ih =>
    simp only [sortKey, insertKey_filter, List.filter_cons]
    by_cases hx : f x == nm <;> simp [hx, ih]

/-- Model of the `Employee` class: the immutable attributes set in
`Employee.__init__`.  The mutable `employees` list is modelled by the
`Reports` table of the containing `Staff` (see below), since it is
populated by mutation during hierarchy construction. -/
structure Employee where
  id : Int
  first_name : String
  salary : Int
  manager : Option Int
deriving DecidableEq, Inhabited

/-- Model of `Employee.isOwner`: `self.manager == None`. -/
def Employee.isOwner (e : Employee) : Bool := e.manager.isNone

/-- Model of `Employee.reportsToId`: `self.manager == id` (Python `None == id`
is `False` for every integer `id`). -/
def Employee.reportsToId (e : Employee) (i : Int) : Bool := e.manager == some i

/-- Model of `Employee.setEmployees`: the value stored into the
`employees` field, namely the argument sorted stably by `first_name`. -/
def setEmployees (employees : List Employee) : List Employee :=
  sortKey (fun x => x.first_name) employees

/-- C5: `setEmployees` stores its argument (same multiset) sorted
ascending by name; the sort is stable (elements of any fixed name keep
their input relative order, stated as preservation of the sublist of a
given name); applying `setEmployees` again to the result is the
identity on it (idempotence). -/
theorem setEmployees_sorted_stable_idem (l : List Employee) :
    (setEmployees l).Perm l
    ∧ (setEmployees l).Pairwise (fun a b => strLt b.first_name a.first_name = false)
    ∧ (∀ nm : String, (setEmployees l).filter (fun e => e.first_name == nm)
        = l.filter (fun e => e.first_name == nm))
    ∧ setEmployees (setEmployees l) = setEmployees l :=
  ⟨sortKey_perm _ l, sortKey_pairwise _ l,
    fun nm => sortKey_filter _ l nm, sortKey_idem _ l⟩

/-- C8: `reportsTo(id)` is true exactly when `managerId` equals `id`;
with an absent `managerId` it is false for every concrete id. -/
theorem reportsToId_spec :
    (∀ (e : Employee) (i : Int), e.reportsToId i = true ↔ e.manager = some i)
    ∧ (∀ e : Employee, e.manager = none → ∀ i : Int, e.reportsToId i = false) := by
  constructor
  · intro e i
    simp [Employee.reportsToId]
  · intro e he i
    simp [Employee.reportsToId, he]

/-- Witness for C8 at a concrete employee with absent manager. -/
theorem reportsToId_spec_w :
    (Employee.mk 1 "jacob" 130000 none).reportsToId 2 = false :=
  reportsToId_spec.2 ⟨1, "jacob", 130000, none⟩ rfl 2

/-- Table of the mutable `employees` (direct-report) lists: entry `i`
holds the indices (into the sorted roster) of the reports stored on
employee `i`.  All entries start empty, as in `Employee.__init__`. -/
abbrev Reports := List (List Nat)

/-- Employee object at index `i` of the roster (out-of-range reads do
not occur on the Python side; `default` keeps the function total). -/
def empAt (emps : List Employee) (i : Nat) : Employee := emps.getD i default

def idAt (emps : List Employee) (i : Nat) : Int := (empAt emps i).id

def nameAt (emps : List Employee) (i : Nat) : String := (empAt emps i).first_name

/-- Indices of `[x for x in self.employees if x.reportsToId(pid)]`,
in roster order. -/
def childIdxs (emps : List Employee) (pid : Int) : List Nat :=
  (List.range emps.length).filter (fun j => (empAt emps j).reportsToId pid)

/-- The sorted selection `employee.setEmployees(employees)` would store
while visiting index `i`: the children of `i`, sorted stably by name. -/
def selOf (emps : List Employee) (i : Nat) : List Nat :=
  sortKey (nameAt emps) (childIdxs emps (idAt emps i))

/-- Model of one `for employee in hierarchyLevel` loop of
`Staff.__generateHierarchy`, parametrized by the function `g` used for
the recursive descent into a non-empty selection.  Visiting current
employee `i` computes the selection, and if it is non-empty stores it
(`setEmployees`) and descends via `g`. -/
def generateHierarchyLevel (emps : List Employee)
    (g : List Nat → Reports → Option (List Nat × Reports)) :
    List Nat → Reports → Option (List Nat × Reports)
  | [], st => some ([], st)
  | i :: rest, st =>
    if 0 < (selOf emps i).length then
      (g (selOf emps i) (st.set i (selOf emps i))).bind fun p =>
        (generateHierarchyLevel emps g rest p.2).map fun q => (i :: p.1 ++ q.1, q.2)
    else
      (generateHierarchyLevel emps g rest st).map fun q => (i :: q.1, q.2)

/-- Model of `Staff.__generateHierarchy`.  `fuel` bounds the Python
recursion depth: the result is `none` exactly when the recursion
exceeds every finite stack (Python's `RecursionError`).  On success it
returns the trace of indices visited as the loop's current employee
(in visiting order, a ghost output) together with the final report
table. -/
def generateHierarchy (emps : List Employee) :
    Nat → List Nat → Reports → Option (List Nat × Reports)
  | 0 => generateHierarchyLevel emps (fun _ _ => none)
  | f + 1 => generateHierarchyLevel emps (generateHierarchy emps f)

/-- Model of a constructed `Staff` object: the name-sorted roster, the
root indices (`self.hierarchy`), and the outcome of the recursive
construction (visit trace and final report table, or `none` on
unbounded recursion). -/
structure Staff where
  employees : List Employee
  hierarchy : List Nat
  built : Option (List Nat × Reports)

/-- Model of `Staff.__init__`: sort by first name, select the owners as
roots, then run `__generateHierarchy` from the roots.  Fuel
`length + 1` is enough for every terminating run of the Python
recursion, since a terminating run's descending chains never repeat an
index. -/
def mkStaff (input : List Employee) : Staff :=
  let sorted := sortKey (fun e => e.first_name) input
  let roots := (List.range sorted.length).filter (fun i => (empAt sorted i).isOwner)
  { employees := sorted
    hierarchy := roots
    built := generateHierarchy sorted (sorted.length + 1) roots
      (List.replicate sorted.length []) }

/-- Model of `Staff.totalSalary`: `reduce(lambda a, b: a + b, salaries)`
with no initial value, which raises `TypeError` on an empty roster
(modelled as `none`). -/
def Staff.totalSalary (s : Staff) : Option Int :=
  match s.employees.map (fun e => e.salary) with
  | [] => none
  | x :: xs => some (xs.foldl (fun a b => a + b) x)

/-- Model of `Staff.__generateHierarchyString`: renders a level of the
hierarchy, indenting each employee's name by `depth` spaces and
recursing into its reports (at `depth + tabWidth`) when it is a
manager.  The same fuel discipline as `generateHierarchy` applies to
the recursion depth. -/
def generateHierarchyStringLevel (emps : List Employee) (reps : Reports)
    (g : List Nat → Nat → Nat → Option String) :
    List Nat → Nat → Nat → Option String
  | [], _, _ => some ""
  | i :: rest, depth, tabWidth =>
    if 0 < (reps.getD i []).length then
      (g (reps.getD i []) (depth + tabWidth) tabWidth).bind fun sub =>
        (generateHierarchyStringLevel emps reps g rest depth tabWidth).map fun r =>
          String.mk (List.replicate depth ' ') ++ nameAt emps i ++ "\n" ++ sub ++ r
    else
      (generateHierarchyStringLevel emps reps g rest depth tabWidth).map fun r =>
        String.mk (List.replicate depth ' ') ++ nameAt emps i ++ "\n" ++ r

/-- Fuel-indexed form of `Staff.__generateHierarchyString`, with the
same recursion-depth discipline as `generateHierarchy`. -/
def generateHierarchyString (emps : List Employee) (reps : Reports) :
    Nat → List Nat → Nat → Nat → Option String
  | 0 => generateHierarchyStringLevel emps reps (fun _ _ _ => none)
  | f + 1 => generateHierarchyStringLevel emps reps (generateHierarchyString emps reps f)

/-- Model of `Staff.__repr__` / `str(staff)`: render the whole
hierarchy from the roots with starting depth 0 and tab width 2. -/
def Staff.render (s : Staff) : Option String :=
  match s.built with
  | none => none
  | some (_, reps) =>
      generateHierarchyString s.employees reps (s.employees.length + 1) s.hierarchy 0 2

/-- Input of the repository's `test_staff_string` test (spec scenarios
B and C): a root "jacob", plus reports "jacob" and "a". -/
def scenarioB : List Employee :=
  [⟨1, "jacob", 130000, none⟩, ⟨2, "jacob", 130000, some 1⟩, ⟨3, "a", 130000, some 1⟩]

/-- Input of spec scenario A. -/
def scenarioA : List Employee :=
  [⟨1, "jacob", 130000, none⟩, ⟨2, "jacob", 130000, some 1⟩]

/-- C1 (code bug in `totalSalary`): with zero employees the
construction itself completes, but `totalSalary()` does not return 0:
`reduce(lambda a, b: a + b, salaries)` has no initial value, so Python
raises `TypeError` on the empty salary sequence (modelled by `none`). -/
theorem totalSalary_empty_raises :
    (mkStaff []).built.isSome = true ∧ (mkStaff []).totalSalary = none := by
  constructor <;> rfl

/-- Roster refuting C2 as stated: "a" (id 1) reports to id 2, and an
employee with id 2 ("b") is present; but "b" itself has a dangling
managerId 99, so nothing is reachable from any root. -/
def danglingChain : List Employee :=
  [⟨1, "a", 10, some 2⟩, ⟨2, "b", 20, some 99⟩]

/-- C2 counterexample: in `danglingChain` the roster keeps both
employees (sorted order "a", "b"), employee 0 ("a") has managerId
equal to the id of employee 1 ("b") of the roster, yet construction
finishes with every reports list empty — employee 0 appears in no
reports list at all, refuting "appears in exactly one reports list"
for arbitrary inputs. -/
theorem valid_manager_missing_from_reports_cex :
    (mkStaff danglingChain).employees = [⟨1, "a", 10, some 2⟩, ⟨2, "b", 20, some 99⟩]
    ∧ (empAt (mkStaff danglingChain).employees 0).manager
        = some (idAt (mkStaff danglingChain).employees 1)
    ∧ (mkStaff danglingChain).built = some ([], [[], []]) := by
  refine ⟨?_, ?_, ?_⟩ <;> rfl

/-- Roster refuting C6 as stated: it contains an orphan "o" whose
managerId 99 matches no id, but it also contains a duplicate-id cycle
reachable from the root ("x" has the root's id 1 and reports to id 1,
so visiting "x" selects "x" again), on which `__generateHierarchy`
recurses without bound (`RecursionError`). -/
def orphanBesideCycle : List Employee :=
  [⟨1, "r", 1, none⟩, ⟨1, "x", 2, some 1⟩, ⟨9, "o", 3, some 99⟩]

/-- C6 counterexample: `orphanBesideCycle` contains an employee whose
managerId (99) is absent from all ids, yet construction does not
complete silently — the recursion never terminates (modelled `none`),
refuting "construction signals no error" for arbitrary inputs
containing a dangling reference. -/
theorem orphan_construction_error_cex :
    (∃ e ∈ orphanBesideCycle, e.manager = some 99 ∧ ∀ f ∈ orphanBesideCycle, f.id ≠ 99)
    ∧ (mkStaff orphanBesideCycle).built = none := by
  constructor
  · exact ⟨⟨9, "o", 3, some 99⟩, by decide, by decide⟩
  · rfl

/-- C7 counterexample (empty roster): zero employees means zero roots,
and the claim's "totalSalary() still sums all nodes" would be
`some 0`; instead `totalSalary` fails (same `reduce` defect as C1). -/
theorem zero_roots_total_salary_cex :
    (mkStaff []).hierarchy = [] ∧ (mkStaff []).totalSalary ≠ some 0 := by
  constructor
  · rfl
  · intro h; cases h

theorem foldl_add_eq_sum (xs : List Int) (a : Int) :
    xs.foldl (fun p q => p + q) a = a + xs.sum := by
  induction xs generalizing a with
  | nil => simp
  | cons x xs ih => simp only [List.foldl_cons, ih, List.sum_cons]; ring

/-- On a non-empty roster, `totalSalary` is the sum of all salaries. -/
theorem totalSalary_eq_sum (s : Staff) (hne : s.employees ≠ []) :
    s.totalSalary = some ((s.employees.map (fun e => e.salary)).sum) := by
  unfold Staff.totalSalary
  cases hl : s.employees with
  | nil => exact absurd hl hne
  | cons e es =>
    simp [hl, foldl_add_eq_sum, List.sum_cons]

theorem mkStaff_employees (input : List Employee) :
    (mkStaff input).employees = sortKey (fun e => e.first_name) input := rfl

/-- On any non-empty input, the constructed staff's `totalSalary` is
the sum of the input salaries. -/
theorem totalSalary_mkStaff_eq (input : List Employee) (hne : input ≠ []) :
    (mkStaff input).totalSalary = some ((input.map (fun e => e.salary)).sum) := by
  have hperm : (mkStaff input).employees.Perm input := by
    rw [mkStaff_employees]; exact sortKey_perm _ input
  have hne' : (mkStaff input).employees ≠ [] := by
    intro h
    exact hne (List.Perm.nil_eq (h ▸ hperm)).symm
  rw [totalSalary_eq_sum _ hne']
  exact congrArg some ((hperm.map (fun e => e.salary)).sum_eq)

/-- C4: on every non-empty input, `totalSalary()` equals the sum of
the individual salaries (whatever the hierarchy looks like), and the
result is invariant under permutations of the input collection. -/
theorem totalSalary_sums_salaries :
    (∀ input : List Employee, input ≠ [] →
      (mkStaff input).totalSalary = some ((input.map (fun e => e.salary)).sum))
    ∧ (∀ input input' : List Employee, input.Perm input' →
        (mkStaff input).totalSalary = (mkStaff input').totalSalary) := by
  have key := totalSalary_mkStaff_eq
  refine ⟨key, ?_⟩
  intro input input' hperm
  by_cases hi : input = []
  · have h2 : input' = [] := (List.Perm.nil_eq (hi ▸ hperm)).symm
    rw [hi, h2]
  · have hne' : input' ≠ [] := by
      intro h
      exact hi (List.Perm.eq_nil (h ▸ hperm))
    rw [key input hi, key input' hne', (hperm.map (fun e => e.salary)).sum_eq]

/-- Witness for C4 on spec scenario A. -/
theorem totalSalary_sums_salaries_w :
    scenarioA ≠ [] ∧ (mkStaff scenarioA).totalSalary
      = some ((scenarioA.map (fun e => e.salary)).sum) :=
  ⟨by decide, totalSalary_sums_salaries.1 scenarioA (by decide)⟩

theorem genH_nil (emps : List Employee) (fuel : Nat) (st : Reports) :
    generateHierarchy emps fuel [] st = some ([], st) := by
  cases fuel <;> rfl

theorem genHS_nil (emps : List Employee) (reps : Reports) (fuel d t : Nat) :
    generateHierarchyString emps reps fuel [] d t = some "" := by
  cases fuel <;> rfl

/-- Indexing the roster by a filtered index range is the same as
filtering the roster directly. -/
theorem filter_range_map_empAt (l : List Employee) (p : Employee → Bool) :
    ((List.range l.length).filter (fun i => p (empAt l i))).map (fun i => empAt l i)
      = l.filter p := by
  induction l with
  | nil => rfl
  | cons x xs ih =>
    have hfm : (List.map Nat.succ (List.range xs.length)).filter
        (fun i => p (empAt (x :: xs) i))
        = List.map Nat.succ ((List.range xs.length).filter (fun i => p (empAt xs i))) := by
      rw [List.filter_map]
      rfl
    have hmm : ∀ s : List Nat,
        (List.map Nat.succ s).map (fun i => empAt (x :: xs) i)
          = s.map (fun i => empAt xs i) := by
      intro s
      rw [List.map_map]
      congr 1
    have hfc : List.filter (fun i => p (empAt (x :: xs) i))
          (0 :: List.map Nat.succ (List.range xs.length))
        = if p x then
            0 :: List.filter (fun i => p (empAt (x :: xs) i))
              (List.map Nat.succ (List.range xs.length))
          else List.filter (fun i => p (empAt (x :: xs) i))
              (List.map Nat.succ (List.range xs.length)) := List.filter_cons
    have hrhs : List.filter p (x :: xs)
        = if p x then x :: List.filter p xs else List.filter p xs := List.filter_cons
    rw [show (x :: xs).length = xs.length + 1 from rfl, List.range_succ_eq_map]
    rw [hfc, hrhs]
    by_cases hp : p x
    · simp only [hp, if_true]
      rw [List.map_cons, hfm, hmm _, ih]
      rfl
    · simp only [hp, if_false, Bool.false_eq_true]
      rw [hfm, hmm _, ih]

/-- Very small roster with no roots (its sole employee has a dangling
manager reference); used as the C7 witness input. -/
def lonelyOrphan : List Employee := [⟨1, "z", 5, some 99⟩]

/-- C7 (amended): `roots` is exactly the name-sorted subsequence of
ownerless employees; on a non-empty input with zero roots, `roots` is
empty, `render()` is the empty string, and `totalSalary()` still sums
every salary.  (On the empty input the roots and render clauses hold
but `totalSalary` raises instead of returning 0 — the C1 defect — so
the sum clause is restricted to non-empty inputs.) -/
theorem roots_are_ownerless :
    (∀ input : List Employee,
      (mkStaff input).hierarchy.map (fun i => empAt (mkStaff input).employees i)
        = (mkStaff input).employees.filter Employee.isOwner)
    ∧ (∀ input : List Employee, input ≠ [] → (∀ e ∈ input, e.isOwner = false) →
        (mkStaff input).hierarchy = []
        ∧ (mkStaff input).render = some ""
        ∧ (mkStaff input).totalSalary = some ((input.map (fun e => e.salary)).sum)) := by
  constructor
  · intro input
    exact filter_range_map_empAt (sortKey (fun e => e.first_name) input) Employee.isOwner
  · intro input hne hnoroot
    have hperm : (mkStaff input).employees.Perm input := by
      rw [mkStaff_employees]; exact sortKey_perm _ input
    have hall : ∀ i ∈ List.range (mkStaff input).employees.length,
        ¬ ((empAt (mkStaff input).employees i).isOwner = true) := by
      intro i hi
      rw [List.mem_range] at hi
      have hmem : empAt (mkStaff input).employees i ∈ (mkStaff input).employees := by
        rw [empAt, List.getD_eq_getElem _ _ hi]
        exact List.getElem_mem hi
      have hmem' : empAt (mkStaff input).employees i ∈ input := hperm.mem_iff.mp hmem
      rw [hnoroot _ hmem']
      simp
    have hroots : (mkStaff input).hierarchy = [] := List.filter_eq_nil_iff.mpr hall
    have hbuilt : (mkStaff input).built
        = some ([], List.replicate (mkStaff input).employees.length []) := by
      have h0 : (mkStaff input).built
          = generateHierarchy (mkStaff input).employees
              ((mkStaff input).employees.length + 1) (mkStaff input).hierarchy
              (List.replicate (mkStaff input).employees.length []) := rfl
      rw [h0, hroots, genH_nil]
    refine ⟨hroots, ?_, totalSalary_mkStaff_eq input hne⟩
    rw [Staff.render, hbuilt, hroots]
    exact genHS_nil _ _ _ _ _

/-- Witness for C7 on a concrete one-employee rootless roster. -/
theorem roots_are_ownerless_w :
    (mkStaff lonelyOrphan).hierarchy = []
    ∧ (mkStaff lonelyOrphan).render = some ""
    ∧ (mkStaff lonelyOrphan).totalSalary
        = some ((lonelyOrphan.map (fun e => e.salary)).sum) :=
  roots_are_ownerless.2 lonelyOrphan (by decide) (by decide)

/-- Concatenation of a list of lines, as `__generateHierarchyString`
accumulates them. -/
def concatStrs : List String → String
  | [] => ""
  | s :: rest => s ++ concatStrs rest

theorem concatStrs_append (a b : List String) :
    concatStrs (a ++ b) = concatStrs a ++ concatStrs b := by
  induction a with
  | nil => simp [concatStrs, String.empty_append]
  | cons s rest ih => simp [concatStrs, ih, String.append_assoc]

/-- Modelled from the spec (§4.2, `render`): one level of the
depth-first pre-order traversal of the forest, listing each visited
employee as a pair (nesting level, roster index); a node's subtree (if
any) follows it, before its next sibling.  Parametrized by `g` for the
descent, with the same fuel discipline as the renderer. -/
def preorderLevel (reps : Reports) (g : List Nat → Nat → Option (List (Nat × Nat))) :
    List Nat → Nat → Option (List (Nat × Nat))
  | [], _ => some []
  | i :: rest, k =>
    if 0 < (reps.getD i []).length then
      (g (reps.getD i []) (k + 1)).bind fun sub =>
        (preorderLevel reps g rest k).map fun r => (k, i) :: sub ++ r
    else
      (preorderLevel reps g rest k).map fun r => (k, i) :: r

/-- Modelled from the spec (§4.2, `render`): the fuel-indexed
depth-first pre-order traversal. -/
def preorderOf (reps : Reports) : Nat → List Nat → Nat → Option (List (Nat × Nat))
  | 0 => preorderLevel reps (fun _ _ => none)
  | f + 1 => preorderLevel reps (preorderOf reps f)

/-- Modelled from the spec (§4.2, `render`): the line emitted for one
pre-order entry — the employee's name, indented by
`start + tabWidth * level` spaces, terminated by exactly one
newline. -/
def lineAt (emps : List Employee) (d t : Nat) (pr : Nat × Nat) : String :=
  String.mk (List.replicate (d + t * pr.1) ' ') ++ nameAt emps pr.2 ++ "\n"

theorem genHSLevel_eq_preorder (emps : List Employee) (reps : Reports) (d t : Nat)
    (g : List Nat → Nat → Nat → Option String)
    (gp : List Nat → Nat → Option (List (Nat × Nat)))
    (hg : ∀ lvl k, g lvl (d + t * k) t
        = (gp lvl k).map fun ps => concatStrs (ps.map (lineAt emps d t))) :
    ∀ (level : List Nat) (k : Nat),
      generateHierarchyStringLevel emps reps g level (d + t * k) t
        = (preorderLevel reps gp level k).map
            fun ps => concatStrs (ps.map (lineAt emps d t)) := by
  intro level
  induction level with
  | nil => intro k; rfl
  | cons i rest ih =>
    intro k
    by_cases hrep : 0 < (reps.getD i []).length
    · have hL : generateHierarchyStringLevel emps reps g (i :: rest) (d + t * k) t
          = (g (reps.getD i []) (d + t * k + t) t).bind fun sub =>
              (generateHierarchyStringLevel emps reps g rest (d + t * k) t).map fun r =>
                String.mk (List.replicate (d + t * k) ' ') ++ nameAt emps i ++ "\n"
                  ++ sub ++ r := by
        simp only [generateHierarchyStringLevel]
        rw [if_pos hrep]
      have hR : preorderLevel reps gp (i :: rest) k
          = (gp (reps.getD i []) (k + 1)).bind fun sub =>
              (preorderLevel reps gp rest k).map fun r => (k, i) :: sub ++ r := by
        simp only [preorderLevel]
        rw [if_pos hrep]
      rw [hL, hR, show d + t * k + t = d + t * (k + 1) from by ring, hg, ih k]
      cases gp (reps.getD i []) (k + 1) with
      | none => rfl
      | some sub =>
        cases preorderLevel reps gp rest k with
        | none => rfl
        | some r =>
          show some _ = some _
          congr 1
          simp [concatStrs, List.map_append, concatStrs_append, lineAt,
            String.append_assoc]
    · have hL : generateHierarchyStringLevel emps reps g (i :: rest) (d + t * k) t
          = (generateHierarchyStringLevel emps reps g rest (d + t * k) t).map fun r =>
              String.mk (List.replicate (d + t * k) ' ') ++ nameAt emps i ++ "\n" ++ r := by
        simp only [generateHierarchyStringLevel]
        rw [if_neg hrep]
      have hR : preorderLevel reps gp (i :: rest) k
          = (preorderLevel reps gp rest k).map fun r => (k, i) :: r := by
        simp only [preorderLevel]
        rw [if_neg hrep]
      rw [hL, hR, ih k]
      cases preorderLevel reps gp rest k with
      | none => rfl
      | some r =>
        show some _ = some _
        congr 1

theorem genHS_eq_preorder (emps : List Employee) (reps : Reports) (d t : Nat) :
    ∀ (fuel : Nat) (level : List Nat) (k : Nat),
      generateHierarchyString emps reps fuel level (d + t * k) t
        = (preorderOf reps fuel level k).map
            fun ps => concatStrs (ps.map (lineAt emps d t)) := by
  intro fuel
  induction fuel with
  | zero =>
    intro level k
    exact genHSLevel_eq_preorder emps reps d t _ _ (fun lvl k' => rfl) level k
  | succ f ih =>
    intro level k
    exact genHSLevel_eq_preorder emps reps d t _ _ (fun lvl k' => ih lvl k') level k

/-- C3: `render()` is exactly the depth-first pre-order listing of the
forest from the roots in their fixed order — one line per visited
employee, the name indented by `tabWidth * level` spaces (tab width 2,
starting depth 0), each line ending in exactly one newline — and on
the concrete input of scenario C it produces "jacob\n  a\n  jacob\n". -/
theorem render_is_preorder_listing :
    (∀ (input : List Employee) (tr : List Nat) (reps : Reports),
      (mkStaff input).built = some (tr, reps) →
      (mkStaff input).render
        = (preorderOf reps ((mkStaff input).employees.length + 1)
            (mkStaff input).hierarchy 0).map
            fun ps => concatStrs (ps.map (lineAt (mkStaff input).employees 0 2)))
    ∧ (mkStaff scenarioB).render = some "jacob\n  a\n  jacob\n" := by
  constructor
  · intro input tr reps hbuilt
    rw [Staff.render, hbuilt]
    have h := genHS_eq_preorder (mkStaff input).employees reps 0 2
      ((mkStaff input).employees.length + 1) (mkStaff input).hierarchy 0
    simpa using h
  · decide

/-- Witness for C3's general conjunct at the scenario-C input. -/
theorem render_is_preorder_listing_w :
    (mkStaff scenarioB).built = some ([1, 0, 2], [[], [0, 2], []])
    ∧ (mkStaff scenarioB).render
      = (preorderOf [[], [0, 2], []] ((mkStaff scenarioB).employees.length + 1)
          (mkStaff scenarioB).hierarchy 0).map
          (fun ps => concatStrs (ps.map (lineAt (mkStaff scenarioB).employees 0 2))) :=
  ⟨by decide, render_is_preorder_listing.1 scenarioB [1, 0, 2] [[], [0, 2], []] (by decide)⟩

/-- The name-sorted roster the `Staff` constructor works on. -/
def rosterOf (input : List Employee) : List Employee :=
  sortKey (fun e => e.first_name) input

theorem mkStaff_employees_rosterOf (input : List Employee) :
    (mkStaff input).employees = rosterOf input := rfl

/-- Index of the roster employee holding the manager id of employee
`j`, when one exists (the unique one once ids are unique). -/
def parentIdx (emps : List Employee) (j : Nat) : Option Nat :=
  match (empAt emps j).manager with
  | none => none
  | some m => (List.range emps.length).find? (fun i => (empAt emps i).id == m)

/-- Iterated `parentIdx`: the `k`-th node on the manager chain above
`j` (`ancIdx emps 0 j = some j`). -/
def ancIdx (emps : List Employee) : Nat → Nat → Option Nat
  | 0, j => some j
  | k + 1, j =>
    match ancIdx emps k j with
    | none => none
    | some a => parentIdx emps a

def isRootAt (emps : List Employee) (j : Nat) : Bool := (empAt emps j).isOwner

/-- The manager chain above `j` hits a root after exactly `k` steps. -/
def rootedAt (emps : List Employee) (k j : Nat) : Bool :=
  match ancIdx emps k j with
  | none => false
  | some r => isRootAt emps r

def UniqueIds (l : List Employee) : Prop := l.Pairwise (fun a b => a.id ≠ b.id)

/-- Every roster employee's manager chain reaches a root (in at most
`length` steps — more are never needed on a finite roster). -/
def AllRooted (emps : List Employee) : Prop :=
  ∀ j ∈ List.range emps.length,
    ∃ k ∈ List.range (emps.length + 1), rootedAt emps k j = true

/-- The input's manager graph is a valid forest: ids are unique (so
each node has at most one parent) and every manager chain reaches a
root.  For a finite roster with unique ids the latter holds exactly
when every `managerId` is absent or references a present id and the
manager relation is acyclic. -/
def ValidForest (input : List Employee) : Prop :=
  UniqueIds (rosterOf input) ∧ AllRooted (rosterOf input)

instance (l : List Employee) : Decidable (UniqueIds l) :=
  inferInstanceAs (Decidable (l.Pairwise (fun (a b : Employee) => a.id ≠ b.id)))

instance (emps : List Employee) : Decidable (AllRooted emps) :=
  inferInstanceAs (Decidable (∀ j ∈ List.range emps.length,
    ∃ k ∈ List.range (emps.length + 1), rootedAt emps k j = true))

instance (input : List Employee) : Decidable (ValidForest input) :=
  inferInstanceAs (Decidable (UniqueIds (rosterOf input) ∧ AllRooted (rosterOf input)))

/-- Distance from `j` to the root of its manager chain (0 when the
chain never reaches a root). -/
def depOf (emps : List Employee) (j : Nat) : Nat :=
  if h : ((List.range (emps.length + 1)).any (fun k => rootedAt emps k j)) = true then
    Nat.find (show ∃ k, rootedAt emps k j = true by
      obtain ⟨k, _, hk⟩ := List.any_eq_true.mp h
      exact ⟨k, hk⟩)
  else 0

/-- Occurrences of an optional index in a level. -/
def cntO (o : Option Nat) (level : List Nat) : Nat :=
  match o with
  | none => 0
  | some a => level.count a

theorem mem_childIdxs (emps : List Employee) (pid : Int) (j : Nat) :
    j ∈ childIdxs emps pid ↔ j < emps.length ∧ (empAt emps j).manager = some pid := by
  simp [childIdxs, List.mem_filter, List.mem_range, Employee.reportsToId]

theorem childIdxs_nodup (emps : List Employee) (pid : Int) :
    (childIdxs emps pid).Nodup :=
  (List.nodup_range emps.length).filter _

theorem selOf_perm (emps : List Employee) (i : Nat) :
    (selOf emps i).Perm (childIdxs emps (idAt emps i)) :=
  sortKey_perm _ _

theorem selOf_nodup (emps : List Employee) (i : Nat) : (selOf emps i).Nodup :=
  (selOf_perm emps i).nodup_iff.mpr (childIdxs_nodup emps (idAt emps i))

theorem mem_selOf (emps : List Employee) (i j : Nat) :
    j ∈ selOf emps i
      ↔ j < emps.length ∧ (empAt emps j).manager = some (idAt emps i) := by
  rw [(selOf_perm emps i).mem_iff, mem_childIdxs]

theorem empAt_out_of_range (emps : List Employee) (j : Nat)
    (h : emps.length ≤ j) : empAt emps j = default :=
  List.getD_eq_default _ _ h

theorem idAt_injective_on (emps : List Employee) (hu : UniqueIds emps)
    (a b : Nat) (ha : a < emps.length) (hb : b < emps.length)
    (hid : idAt emps a = idAt emps b) : a = b := by
  rcases lt_trichotomy a b with h | h | h
  · exfalso
    have := (List.pairwise_iff_get.mp hu) ⟨a, ha⟩ ⟨b, hb⟩ h
    apply this
    rw [idAt, idAt, empAt, empAt, List.getD_eq_getElem _ _ ha,
      List.getD_eq_getElem _ _ hb] at hid
    exact hid
  · exact h
  · exfalso
    have := (List.pairwise_iff_get.mp hu) ⟨b, hb⟩ ⟨a, ha⟩ h
    apply this
    rw [idAt, idAt, empAt, empAt, List.getD_eq_getElem _ _ ha,
      List.getD_eq_getElem _ _ hb] at hid
    exact hid.symm

theorem parentIdx_eq_some_iff (emps : List Employee) (hu : UniqueIds emps)
    (j i : Nat) :
    parentIdx emps j = some i
      ↔ i < emps.length ∧ (empAt emps j).manager = some (idAt emps i) := by
  cases hm : (empAt emps j).manager with
  | none =>
    constructor
    · intro h
      rw [parentIdx, hm] at h
      cases h
    · rintro ⟨_, hmg⟩
      cases hmg
  | some m =>
    constructor
    · intro h
      rw [parentIdx, hm] at h
      have h' : (List.range emps.length).find? (fun a => (empAt emps a).id == m)
          = some i := h
      have hp := List.find?_some h'
      have hmem := List.mem_range.mp (List.mem_of_find?_eq_some h')
      have hid : (empAt emps i).id = m := by simpa using hp
      refine ⟨hmem, ?_⟩
      simp [idAt, hid]
    · rintro ⟨hi, hmg⟩
      have hmi : m = idAt emps i := by injection hmg
      rw [parentIdx, hm]
      show (List.range emps.length).find? (fun a => (empAt emps a).id == m) = some i
      cases hfind : (List.range emps.length).find? (fun a => (empAt emps a).id == m) with
      | none =>
        exfalso
        have hnone := List.find?_eq_none.mp hfind i (List.mem_range.mpr hi)
        rw [hmi] at hnone
        simp [idAt] at hnone
      | some a =>
        have hp := List.find?_some hfind
        have hmem := List.mem_range.mp (List.mem_of_find?_eq_some hfind)
        have hida : idAt emps a = idAt emps i := by
          have hia : (empAt emps a).id = m := by simpa using hp
          show (empAt emps a).id = idAt emps i
          rw [hia, hmi]
        rw [idAt_injective_on emps hu a i hmem hi hida]

theorem parentIdx_lt (emps : List Employee) (j i : Nat)
    (h : parentIdx emps j = some i) : i < emps.length := by
  rw [parentIdx] at h
  cases hm : (empAt emps j).manager with
  | none => rw [hm] at h; cases h
  | some m =>
    rw [hm] at h
    have := List.mem_of_find?_eq_some h
    exact List.mem_range.mp this

theorem mem_selOf_iff_parentIdx (emps : List Employee) (hu : UniqueIds emps)
    (i j : Nat) (hi : i < emps.length) :
    j ∈ selOf emps i ↔ parentIdx emps j = some i := by
  rw [mem_selOf, parentIdx_eq_some_iff emps hu]
  constructor
  · rintro ⟨_, hm⟩; exact ⟨hi, hm⟩
  · rintro ⟨_, hm⟩
    refine ⟨?_, hm⟩
    by_contra hj
    rw [empAt_out_of_range emps j (le_of_not_lt hj)] at hm
    cases hm

theorem parentIdx_out_of_range (emps : List Employee) (j : Nat)
    (h : emps.length ≤ j) : parentIdx emps j = none := by
  rw [parentIdx, empAt_out_of_range emps j h]

theorem parentIdx_of_root (emps : List Employee) (r : Nat)
    (h : isRootAt emps r = true) : parentIdx emps r = none := by
  rw [isRootAt, Employee.isOwner, Option.isNone_iff_eq_none] at h
  rw [parentIdx, h]

theorem ancIdx_succ (emps : List Employee) (k x : Nat) :
    ancIdx emps (k + 1) x
      = match ancIdx emps k x with
        | none => none
        | some a => parentIdx emps a := rfl

theorem ancIdx_succ_none (emps : List Employee) (k j : Nat)
    (h : ancIdx emps k j = none) : ancIdx emps (k + 1) j = none := by
  rw [ancIdx_succ, h]

theorem ancIdx_none_mono (emps : List Employee) (j : Nat) :
    ∀ k k', k ≤ k' → ancIdx emps k j = none → ancIdx emps k' j = none := by
  intro k k' hkk h
  induction k' with
  | zero =>
    have hk0 : k = 0 := Nat.le_zero.mp hkk
    rw [← hk0]; exact h
  | succ k2 ih =>
    rcases Nat.lt_or_ge k (k2 + 1) with hlt | hge
    · exact ancIdx_succ_none emps k2 j (ih (Nat.lt_succ_iff.mp hlt))
    · have hk : k = k2 + 1 := le_antisymm hkk hge
      rw [← hk]; exact h

theorem ancIdx_shift (emps : List Employee) (j i : Nat)
    (hp : parentIdx emps j = some i) :
    ∀ k, ancIdx emps (k + 1) j = ancIdx emps k i := by
  intro k
  induction k with
  | zero =>
    show parentIdx emps j = ancIdx emps 0 i
    rw [hp]
    rfl
  | succ k ih =>
    rw [ancIdx_succ emps (k + 1) j, ih, ← ancIdx_succ emps k i]

theorem rootedAt_zero (emps : List Employee) (j : Nat) :
    rootedAt emps 0 j = isRootAt emps j := rfl

theorem rootedAt_shift (emps : List Employee) (j i : Nat)
    (hp : parentIdx emps j = some i) (k : Nat) :
    rootedAt emps (k + 1) j = rootedAt emps k i := by
  simp only [rootedAt]
  rw [ancIdx_shift emps j i hp k]

theorem depOf_spec (emps : List Employee) (hr : AllRooted emps) (j : Nat)
    (hj : j < emps.length) :
    rootedAt emps (depOf emps j) j = true
    ∧ (∀ k, k < depOf emps j → rootedAt emps k j = false)
    ∧ depOf emps j ≤ emps.length := by
  obtain ⟨k0, hk0r, hk0⟩ := hr j (List.mem_range.mpr hj)
  have hany : ((List.range (emps.length + 1)).any (fun k => rootedAt emps k j)) = true :=
    List.any_eq_true.mpr ⟨k0, hk0r, hk0⟩
  have hex : ∃ k, rootedAt emps k j = true := ⟨k0, hk0⟩
  have hdep : depOf emps j = Nat.find hex := by
    rw [depOf, dif_pos hany]
  rw [hdep]
  refine ⟨Nat.find_spec hex, fun k hk => ?_, ?_⟩
  · exact Bool.eq_false_iff.mpr (Nat.find_min hex hk)
  · exact le_trans (Nat.find_min' hex hk0) (Nat.lt_succ_iff.mp (List.mem_range.mp hk0r))

theorem depOf_succ (emps : List Employee) (hr : AllRooted emps) (j i : Nat)
    (hj : j < emps.length) (hi : i < emps.length)
    (hp : parentIdx emps j = some i) (hnr : isRootAt emps j = false) :
    depOf emps j = depOf emps i + 1 := by
  obtain ⟨hrj, hminj, hbj⟩ := depOf_spec emps hr j hj
  obtain ⟨hri, hmini, hbi⟩ := depOf_spec emps hr i hi
  cases hd : depOf emps j with
  | zero =>
    rw [hd, rootedAt_zero, hnr] at hrj
    cases hrj
  | succ d =>
    rw [hd] at hrj hminj
    rw [rootedAt_shift emps j i hp d] at hrj
    have h1 : depOf emps i ≤ d := by
      by_contra hlt
      rw [hmini d (not_le.mp hlt)] at hrj
      cases hrj
    have h2 : d ≤ depOf emps i := by
      by_contra hlt
      have hx := hminj (depOf emps i + 1) (by omega)
      rw [rootedAt_shift emps j i hp (depOf emps i), hri] at hx
      cases hx
    omega

theorem depOf_child (emps : List Employee) (hu : UniqueIds emps)
    (hr : AllRooted emps) (i j : Nat) (hi : i < emps.length)
    (hj : j ∈ selOf emps i) :
    depOf emps j = depOf emps i + 1 ∧ depOf emps i + 1 ≤ emps.length := by
  have hp := (mem_selOf_iff_parentIdx emps hu i j hi).mp hj
  have hjn : j < emps.length := ((mem_selOf emps i j).mp hj).1
  have hm := ((mem_selOf emps i j).mp hj).2
  have hnr : isRootAt emps j = false := by
    simp [isRootAt, Employee.isOwner, hm]
  have hstep := depOf_succ emps hr j i hjn hi hp hnr
  have hb := (depOf_spec emps hr j hjn).2.2
  exact ⟨hstep, by omega⟩

theorem ancIdx_of_rooted_none (emps : List Employee) (j k : Nat)
    (hk : rootedAt emps k j = true) :
    ∀ m, k < m → ancIdx emps m j = none := by
  intro m hm
  simp only [rootedAt] at hk
  cases ha : ancIdx emps k j with
  | none => rw [ha] at hk; cases hk
  | some r =>
    rw [ha] at hk
    have h1 : ancIdx emps (k + 1) j = none := by
      rw [ancIdx_succ, ha]
      exact parentIdx_of_root emps r hk
    exact ancIdx_none_mono emps j (k + 1) m hm h1

theorem ancIdx_big_none (emps : List Employee) (hr : AllRooted emps) (j : Nat) :
    ancIdx emps (emps.length + 1) j = none := by
  by_cases hj : j < emps.length
  · obtain ⟨hrj, _, hb⟩ := depOf_spec emps hr j hj
    exact ancIdx_of_rooted_none emps j (depOf emps j) hrj (emps.length + 1) (by omega)
  · have h1 : ancIdx emps 1 j = none :=
      parentIdx_out_of_range emps j (le_of_not_lt hj)
    exact ancIdx_none_mono emps j 1 (emps.length + 1) (by omega) h1

theorem genH_cons_pos (emps : List Employee) (f i : Nat) (rest : List Nat)
    (st : Reports) (hsel : 0 < (selOf emps i).length) :
    generateHierarchy emps (f + 1) (i :: rest) st
      = (generateHierarchy emps f (selOf emps i) (st.set i (selOf emps i))).bind fun p =>
          (generateHierarchy emps (f + 1) rest p.2).map fun q =>
            (i :: p.1 ++ q.1, q.2) := by
  show generateHierarchyLevel emps (generateHierarchy emps f) (i :: rest) st = _
  simp only [generateHierarchyLevel]
  rw [if_pos hsel]
  rfl

theorem genH_zero_pos (emps : List Employee) (i : Nat) (rest : List Nat)
    (st : Reports) (hsel : 0 < (selOf emps i).length) :
    generateHierarchy emps 0 (i :: rest) st = none := by
  show generateHierarchyLevel emps (fun _ _ => none) (i :: rest) st = none
  simp only [generateHierarchyLevel]
  rw [if_pos hsel]
  rfl

theorem genH_cons_neg (emps : List Employee) (fuel i : Nat) (rest : List Nat)
    (st : Reports) (hsel : ¬ 0 < (selOf emps i).length) :
    generateHierarchy emps fuel (i :: rest) st
      = (generateHierarchy emps fuel rest st).map fun q => (i :: q.1, q.2) := by
  cases fuel with
  | zero =>
    show generateHierarchyLevel emps (fun _ _ => none) (i :: rest) st = _
    simp only [generateHierarchyLevel]
    rw [if_neg hsel]
    rfl
  | succ f =>
    show generateHierarchyLevel emps (generateHierarchy emps f) (i :: rest) st = _
    simp only [generateHierarchyLevel]
    rw [if_neg hsel]
    rfl

theorem genH_isSome (emps : List Employee) (hu : UniqueIds emps) (hr : AllRooted emps) :
    ∀ (fuel : Nat) (level : List Nat) (st : Reports),
      (∀ i ∈ level, i < emps.length ∧ emps.length + 1 ≤ fuel + depOf emps i) →
      (generateHierarchy emps fuel level st).isSome = true := by
  intro fuel
  induction fuel with
  | zero =>
    intro level st h
    induction level generalizing st with
    | nil => rw [genH_nil]; rfl
    | cons i rest ih =>
      by_cases hsel : 0 < (selOf emps i).length
      · obtain ⟨hi, hd⟩ := h i (List.mem_cons_self i rest)
        have hb := (depOf_spec emps hr i hi).2.2
        omega
      · rw [genH_cons_neg emps 0 i rest st hsel]
        have hrest := ih st (fun a ha => h a (List.mem_cons_of_mem i ha))
        cases hrc : generateHierarchy emps 0 rest st with
        | none => rw [hrc] at hrest; cases hrest
        | some q => rfl
  | succ f ihf =>
    intro level st h
    induction level generalizing st with
    | nil => rw [genH_nil]; rfl
    | cons i rest ih =>
      by_cases hsel : 0 < (selOf emps i).length
      · rw [genH_cons_pos emps f i rest st hsel]
        obtain ⟨hi, hd⟩ := h i (List.mem_cons_self i rest)
        have hsub : (generateHierarchy emps f (selOf emps i)
            (st.set i (selOf emps i))).isSome = true := by
          apply ihf
          intro a ha
          obtain ⟨hstep, hb⟩ := depOf_child emps hu hr i a hi ha
          have han : a < emps.length := ((mem_selOf emps i a).mp ha).1
          exact ⟨han, by omega⟩
        cases hp : generateHierarchy emps f (selOf emps i) (st.set i (selOf emps i)) with
        | none => rw [hp] at hsub; cases hsub
        | some p =>
          show (Option.map (fun q => (i :: p.1 ++ q.1, q.2))
            (generateHierarchy emps (f + 1) rest p.2)).isSome = true
          have hrest := ih p.2 (fun a ha => h a (List.mem_cons_of_mem i ha))
          cases hq : generateHierarchy emps (f + 1) rest p.2 with
          | none => rw [hq] at hrest; cases hrest
          | some q => rfl
      · rw [genH_cons_neg emps (f + 1) i rest st hsel]
        have hrest := ih st (fun a ha => h a (List.mem_cons_of_mem i ha))
        cases hrc : generateHierarchy emps (f + 1) rest st with
        | none => rw [hrc] at hrest; cases hrest
        | some q => rfl

theorem getD_set_self (l : List (List Nat)) (i : Nat) (v : List Nat)
    (h : i < l.length) : (l.set i v).getD i [] = v := by
  rw [List.getD_eq_getElem?_getD, List.getElem?_set, if_pos rfl, if_pos h]
  rfl

theorem getD_set_ne (l : List (List Nat)) (i k : Nat) (v : List Nat)
    (h : i ≠ k) : (l.set i v).getD k [] = l.getD k [] := by
  rw [List.getD_eq_getElem?_getD, List.getElem?_set, if_neg h,
    ← List.getD_eq_getElem?_getD]

theorem genH_length (emps : List Employee) :
    ∀ (fuel : Nat) (level : List Nat) (st : Reports) (tr : List Nat) (st' : Reports),
      generateHierarchy emps fuel level st = some (tr, st') →
      st'.length = st.length := by
  intro fuel
  induction fuel with
  | zero =>
    intro level
    induction level with
    | nil =>
      intro st tr st' h
      rw [genH_nil] at h
      cases h
      rfl
    | cons i rest ih =>
      intro st tr st' h
      by_cases hsel : 0 < (selOf emps i).length
      · rw [genH_zero_pos emps i rest st hsel] at h
        cases h
      · rw [genH_cons_neg emps 0 i rest st hsel] at h
        cases hrc : generateHierarchy emps 0 rest st with
        | none => rw [hrc] at h; cases h
        | some q =>
          rw [hrc] at h
          cases h
          exact ih st q.1 q.2 hrc
  | succ f ihf =>
    intro level
    induction level with
    | nil =>
      intro st tr st' h
      rw [genH_nil] at h
      cases h
      rfl
    | cons i rest ih =>
      intro st tr st' h
      by_cases hsel : 0 < (selOf emps i).length
      · rw [genH_cons_pos emps f i rest st hsel] at h
        cases hp : generateHierarchy emps f (selOf emps i) (st.set i (selOf emps i)) with
        | none => rw [hp] at h; cases h
        | some p =>
          rw [hp] at h
          have h2 : Option.map (fun q => (i :: p.1 ++ q.1, q.2))
              (generateHierarchy emps (f + 1) rest p.2) = some (tr, st') := h
          cases hq : generateHierarchy emps (f + 1) rest p.2 with
          | none => rw [hq] at h2; cases h2
          | some q =>
            rw [hq] at h2
            cases h2
            have e1 := ihf (selOf emps i) (st.set i (selOf emps i)) p.1 p.2 hp
            have e2 := ih p.2 q.1 q.2 hq
            rw [e2, e1, List.length_set]
      · rw [genH_cons_neg emps (f + 1) i rest st hsel] at h
        cases hrc : generateHierarchy emps (f + 1) rest st with
        | none => rw [hrc] at h; cases h
        | some q =>
          rw [hrc] at h
          cases h
          exact ih st q.1 q.2 hrc

theorem genH_state (emps : List Employee) :
    ∀ (fuel : Nat) (level : List Nat) (st : Reports) (tr : List Nat) (st' : Reports),
      generateHierarchy emps fuel level st = some (tr, st') →
      st.length = emps.length → (∀ i ∈ level, i < emps.length) →
      ∀ m, st'.getD m []
        = if m ∈ tr ∧ 0 < (selOf emps m).length then selOf emps m
          else st.getD m [] := by
  intro fuel
  induction fuel with
  | zero =>
    intro level
    induction level with
    | nil =>
      intro st tr st' h hlen hb m
      rw [genH_nil] at h
      cases h
      simp
    | cons i rest ih =>
      intro st tr st' h hlen hb m
      by_cases hsel : 0 < (selOf emps i).length
      · rw [genH_zero_pos emps i rest st hsel] at h
        cases h
      · rw [genH_cons_neg emps 0 i rest st hsel] at h
        cases hrc : generateHierarchy emps 0 rest st with
        | none => rw [hrc] at h; cases h
        | some q =>
          rw [hrc] at h
          cases h
          have hbase := ih st q.1 q.2 hrc hlen
            (fun a ha => hb a (List.mem_cons_of_mem i ha)) m
          by_cases hm : m ∈ q.1 ∧ 0 < (selOf emps m).length
          · rw [if_pos hm] at hbase
            rw [hbase, if_pos ⟨List.mem_cons_of_mem i hm.1, hm.2⟩]
          · rw [if_neg hm] at hbase
            rw [hbase]
            by_cases hmi : m = i
            · subst hmi
              rw [if_neg]
              rintro ⟨_, hpos⟩
              exact hsel hpos
            · rw [if_neg]
              rintro ⟨hmem, hpos⟩
              rcases List.mem_cons.mp hmem with h' | h'
              · exact hmi h'
              · exact hm ⟨h', hpos⟩
  | succ f ihf =>
    intro level
    induction level with
    | nil =>
      intro st tr st' h hlen hb m
      rw [genH_nil] at h
      cases h
      simp
    | cons i rest ih =>
      intro st tr st' h hlen hb m
      have hi : i < emps.length := hb i (List.mem_cons_self i rest)
      by_cases hsel : 0 < (selOf emps i).length
      · rw [genH_cons_pos emps f i rest st hsel] at h
        cases hp : generateHierarchy emps f (selOf emps i) (st.set i (selOf emps i)) with
        | none => rw [hp] at h; cases h
        | some p =>
          rw [hp] at h
          have h2 : Option.map (fun q => (i :: p.1 ++ q.1, q.2))
              (generateHierarchy emps (f + 1) rest p.2) = some (tr, st') := h
          cases hq : generateHierarchy emps (f + 1) rest p.2 with
          | none => rw [hq] at h2; cases h2
          | some q =>
            rw [hq] at h2
            cases h2
            have hlen1 : (st.set i (selOf emps i)).length = emps.length := by
              rw [List.length_set]; exact hlen
            have hchild : ∀ a ∈ selOf emps i, a < emps.length :=
              fun a ha => ((mem_selOf emps i a).mp ha).1
            have ih1 := ihf (selOf emps i) (st.set i (selOf emps i)) p.1 p.2 hp
              hlen1 hchild m
            have hlenp : p.2.length = emps.length := by
              rw [genH_length emps f (selOf emps i) (st.set i (selOf emps i)) p.1 p.2 hp]
              exact hlen1
            have ih2 := ih p.2 q.1 q.2 hq hlenp
              (fun a ha => hb a (List.mem_cons_of_mem i ha)) m
            by_cases hq1 : m ∈ q.1 ∧ 0 < (selOf emps m).length
            · rw [if_pos hq1] at ih2
              rw [ih2, if_pos ⟨List.mem_cons_of_mem i
                (List.mem_append.mpr (Or.inr hq1.1)), hq1.2⟩]
            · rw [if_neg hq1] at ih2
              rw [ih2]
              by_cases hp1 : m ∈ p.1 ∧ 0 < (selOf emps m).length
              · rw [if_pos hp1] at ih1
                rw [ih1, if_pos ⟨List.mem_cons_of_mem i
                  (List.mem_append.mpr (Or.inl hp1.1)), hp1.2⟩]
              · rw [if_neg hp1] at ih1
                rw [ih1]
                by_cases hmi : m = i
                · subst hmi
                  rw [getD_set_self st m (selOf emps m) (by rw [hlen]; exact hi)]
                  rw [if_pos ⟨List.mem_cons_self m _, hsel⟩]
                · rw [getD_set_ne st i m (selOf emps i) (fun h' => hmi h'.symm)]
                  rw [if_neg]
                  rintro ⟨hmem, hpos⟩
                  rcases List.mem_cons.mp hmem with h' | h'
                  · exact hmi h'
                  · rcases List.mem_append.mp h' with h'' | h''
                    · exact hp1 ⟨h'', hpos⟩
                    · exact hq1 ⟨h'', hpos⟩
      · rw [genH_cons_neg emps (f + 1) i rest st hsel] at h
        cases hrc : generateHierarchy emps (f + 1) rest st with
        | none => rw [hrc] at h; cases h
        | some q =>
          rw [hrc] at h
          cases h
          have hbase := ih st q.1 q.2 hrc hlen
            (fun a ha => hb a (List.mem_cons_of_mem i ha)) m
          by_cases hm : m ∈ q.1 ∧ 0 < (selOf emps m).length
          · rw [if_pos hm] at hbase
            rw [hbase, if_pos ⟨List.mem_cons_of_mem i hm.1, hm.2⟩]
          · rw [if_neg hm] at hbase
            rw [hbase]
            by_cases hmi : m = i
            · subst hmi
              rw [if_neg]
              rintro ⟨_, hpos⟩
              exact hsel hpos
            · rw [if_neg]
              rintro ⟨hmem, hpos⟩
              rcases List.mem_cons.mp hmem with h' | h'
              · exact hmi h'
              · exact hm ⟨h', hpos⟩

theorem cntO_nil (o : Option Nat) : cntO o [] = 0 := by
  cases o <;> rfl

theorem cntO_cons (o : Option Nat) (i : Nat) (rest : List Nat) :
    cntO o (i :: rest) = (if o = some i then 1 else 0) + cntO o rest := by
  cases o with
  | none => simp [cntO]
  | some a =>
    simp only [cntO, List.count_cons]
    by_cases h : a = i
    · subst h
      simp
      omega
    · have h2 : ¬ (some a = some i) := by
        intro hc; exact h (Option.some.inj hc)
      have h4 : ¬ i = a := fun hc => h hc.symm
      have h3 : (i == a) = false := by simp [h4]
      rw [h3, if_neg h2]
      simp

theorem ancIdx_lt (emps : List Employee) (k j a : Nat)
    (h : ancIdx emps (k + 1) j = some a) : a < emps.length := by
  rw [ancIdx_succ] at h
  cases hb : ancIdx emps k j with
  | none => rw [hb] at h; cases h
  | some b =>
    rw [hb] at h
    exact parentIdx_lt emps b a h

theorem cntO_anc_selOf (emps : List Employee) (hu : UniqueIds emps) (i : Nat)
    (hi : i < emps.length) (j k : Nat) :
    cntO (ancIdx emps k j) (selOf emps i)
      = if ancIdx emps (k + 1) j = some i then 1 else 0 := by
  cases ha : ancIdx emps k j with
  | none =>
    have h1 := ancIdx_succ_none emps k j ha
    rw [h1, cntO]
    simp
  | some a =>
    have h1 : ancIdx emps (k + 1) j = parentIdx emps a := by
      rw [ancIdx_succ, ha]
    rw [h1]
    show (selOf emps i).count a = _
    by_cases hmem : a ∈ selOf emps i
    · have hpar := (mem_selOf_iff_parentIdx emps hu i a hi).mp hmem
      rw [hpar, if_pos rfl]
      exact List.count_eq_one_of_mem (selOf_nodup emps i) hmem
    · rw [List.count_eq_zero_of_not_mem hmem, if_neg]
      intro hcontra
      exact hmem ((mem_selOf_iff_parentIdx emps hu i a hi).mpr hcontra)

theorem sum_ind_shift (emps : List Employee) (hr : AllRooted emps) (j i : Nat) :
    (∑ k ∈ Finset.range (emps.length + 1),
        if ancIdx emps k j = some i then 1 else 0)
      = (if j = i then 1 else 0)
        + ∑ k ∈ Finset.range (emps.length + 1),
            (if ancIdx emps (k + 1) j = some i then 1 else 0) := by
  have hbig : (if ancIdx emps (emps.length + 1) j = some i then (1 : Nat) else 0) = 0 := by
    rw [ancIdx_big_none emps hr j]
    simp
  have e1 := Finset.sum_range_succ
    (fun k => if ancIdx emps k j = some i then (1 : Nat) else 0) (emps.length + 1)
  have e2 := Finset.sum_range_succ'
    (fun k => if ancIdx emps k j = some i then (1 : Nat) else 0) (emps.length + 1)
  simp only [] at e1 e2
  have hf0 : (if ancIdx emps 0 j = some i then (1 : Nat) else 0)
      = if j = i then 1 else 0 := by
    have h0 : ancIdx emps 0 j = some j := rfl
    rw [h0]
    simp
  omega

theorem genH_count (emps : List Employee) (hu : UniqueIds emps) (hr : AllRooted emps) :
    ∀ (fuel : Nat) (level : List Nat) (st : Reports) (tr : List Nat) (st' : Reports),
      generateHierarchy emps fuel level st = some (tr, st') →
      (∀ i ∈ level, i < emps.length) →
      ∀ j, tr.count j
        = ∑ k ∈ Finset.range (emps.length + 1), cntO (ancIdx emps k j) level := by
  intro fuel
  induction fuel with
  | zero =>
    intro level
    induction level with
    | nil =>
      intro st tr st' h hb j
      rw [genH_nil] at h
      cases h
      simp [cntO_nil]
    | cons i rest ih =>
      intro st tr st' h hb j
      have hi : i < emps.length := hb i (List.mem_cons_self i rest)
      by_cases hsel : 0 < (selOf emps i).length
      · rw [genH_zero_pos emps i rest st hsel] at h
        cases h
      · rw [genH_cons_neg emps 0 i rest st hsel] at h
        cases hrc : generateHierarchy emps 0 rest st with
        | none => rw [hrc] at h; cases h
        | some q =>
          rw [hrc] at h
          cases h
          have ihq := ih st q.1 q.2 hrc
            (fun a ha => hb a (List.mem_cons_of_mem i ha)) j
          have hzero : ∀ k, (if ancIdx emps (k + 1) j = some i then (1 : Nat) else 0) = 0 := by
            intro k
            rw [if_neg]
            intro hc
            cases ha : ancIdx emps k j with
            | none =>
              rw [ancIdx_succ, ha] at hc
              cases hc
            | some a =>
              rw [ancIdx_succ, ha] at hc
              have : a ∈ selOf emps i :=
                (mem_selOf_iff_parentIdx emps hu i a hi).mpr hc
              exact hsel (List.length_pos_of_mem this)
          have hshift := sum_ind_shift emps hr j i
          have hcc : ∀ k ∈ Finset.range (emps.length + 1),
              cntO (ancIdx emps k j) (i :: rest)
                = (if ancIdx emps k j = some i then 1 else 0)
                  + cntO (ancIdx emps k j) rest :=
            fun k _ => cntO_cons _ i rest
          rw [Finset.sum_congr rfl hcc, Finset.sum_add_distrib]
          rw [List.count_cons]
          have hz2 : (∑ k ∈ Finset.range (emps.length + 1),
              if ancIdx emps (k + 1) j = some i then (1 : Nat) else 0) = 0 := by
            rw [Finset.sum_congr rfl (fun k _ => hzero k)]
            simp
          have hij : (if (i == j) = true then (1 : Nat) else 0) = if j = i then 1 else 0 := by
            by_cases hji : j = i
            · subst hji; simp
            · have hija : ¬ i = j := fun hc => hji hc.symm
              rw [if_neg hji, if_neg]
              simp [hija]
          omega
  | succ f ihf =>
    intro level
    induction level with
    | nil =>
      intro st tr st' h hb j
      rw [genH_nil] at h
      cases h
      simp [cntO_nil]
    | cons i rest ih =>
      intro st tr st' h hb j
      have hi : i < emps.length := hb i (List.mem_cons_self i rest)
      by_cases hsel : 0 < (selOf emps i).length
      · rw [genH_cons_pos emps f i rest st hsel] at h
        cases hp : generateHierarchy emps f (selOf emps i) (st.set i (selOf emps i)) with
        | none => rw [hp] at h; cases h
        | some p =>
          rw [hp] at h
          have h2 : Option.map (fun q => (i :: p.1 ++ q.1, q.2))
              (generateHierarchy emps (f + 1) rest p.2) = some (tr, st') := h
          cases hq : generateHierarchy emps (f + 1) rest p.2 with
          | none => rw [hq] at h2; cases h2
          | some q =>
            rw [hq] at h2
            cases h2
            have hchild : ∀ a ∈ selOf emps i, a < emps.length :=
              fun a ha => ((mem_selOf emps i a).mp ha).1
            have ih1 := ihf (selOf emps i) (st.set i (selOf emps i)) p.1 p.2 hp hchild j
            have ih2 := ih p.2 q.1 q.2 hq
              (fun a ha => hb a (List.mem_cons_of_mem i ha)) j
            have hsel2 : ∀ k ∈ Finset.range (emps.length + 1),
                cntO (ancIdx emps k j) (selOf emps i)
                  = if ancIdx emps (k + 1) j = some i then 1 else 0 :=
              fun k _ => cntO_anc_selOf emps hu i hi j k
            rw [Finset.sum_congr rfl hsel2] at ih1
            have hshift := sum_ind_shift emps hr j i
            have hcc : ∀ k ∈ Finset.range (emps.length + 1),
                cntO (ancIdx emps k j) (i :: rest)
                  = (if ancIdx emps k j = some i then 1 else 0)
                    + cntO (ancIdx emps k j) rest :=
              fun k _ => cntO_cons _ i rest
            rw [Finset.sum_congr rfl hcc, Finset.sum_add_distrib]
            rw [List.count_append, List.count_cons]
            have hij : (if (i == j) = true then (1 : Nat) else 0) = if j = i then 1 else 0 := by
              by_cases hji : j = i
              · subst hji; simp
              · have hija : ¬ i = j := fun hc => hji hc.symm
                rw [if_neg hji, if_neg]
                simp [hija]
            omega
      · rw [genH_cons_neg emps (f + 1) i rest st hsel] at h
        cases hrc : generateHierarchy emps (f + 1) rest st with
        | none => rw [hrc] at h; cases h
        | some q =>
          rw [hrc] at h
          cases h
          have ihq := ih st q.1 q.2 hrc
            (fun a ha => hb a (List.mem_cons_of_mem i ha)) j
          have hzero : ∀ k, (if ancIdx emps (k + 1) j = some i then (1 : Nat) else 0) = 0 := by
            intro k
            rw [if_neg]
            intro hc
            cases ha : ancIdx emps k j with
            | none =>
              rw [ancIdx_succ, ha] at hc
              cases hc
            | some a =>
              rw [ancIdx_succ, ha] at hc
              have : a ∈ selOf emps i :=
                (mem_selOf_iff_parentIdx emps hu i a hi).mpr hc
              exact hsel (List.length_pos_of_mem this)
          have hshift := sum_ind_shift emps hr j i
          have hcc : ∀ k ∈ Finset.range (emps.length + 1),
              cntO (ancIdx emps k j) (i :: rest)
                = (if ancIdx emps k j = some i then 1 else 0)
                  + cntO (ancIdx emps k j) rest :=
            fun k _ => cntO_cons _ i rest
          rw [Finset.sum_congr rfl hcc, Finset.sum_add_distrib]
          rw [List.count_cons]
          have hz2 : (∑ k ∈ Finset.range (emps.length + 1),
              if ancIdx emps (k + 1) j = some i then (1 : Nat) else 0) = 0 := by
            rw [Finset.sum_congr rfl (fun k _ => hzero k)]
            simp
          have hij : (if (i == j) = true then (1 : Nat) else 0) = if j = i then 1 else 0 := by
            by_cases hji : j = i
            · subst hji; simp
            · have hija : ¬ i = j := fun hc => hji hc.symm
              rw [if_neg hji, if_neg]
              simp [hija]
          omega

theorem sum_cntO_roots (emps : List Employee)
    (hr : AllRooted emps) (j : Nat) :
    (∑ k ∈ Finset.range (emps.length + 1),
        cntO (ancIdx emps k j)
          ((List.range emps.length).filter (fun i => isRootAt emps i)))
      = if j < emps.length then 1 else 0 := by
  have hnodup : ((List.range emps.length).filter (fun i => isRootAt emps i)).Nodup :=
    (List.nodup_range _).filter _
  have hmemr : ∀ a, a ∈ (List.range emps.length).filter (fun i => isRootAt emps i)
      ↔ a < emps.length ∧ isRootAt emps a = true := by
    intro a
    simp [List.mem_filter, List.mem_range]
  by_cases hj : j < emps.length
  · obtain ⟨hrd, hmin, hbd⟩ := depOf_spec emps hr j hj
    rw [if_pos hj]
    have hsummand : ∀ k ∈ Finset.range (emps.length + 1),
        cntO (ancIdx emps k j)
          ((List.range emps.length).filter (fun i => isRootAt emps i))
        = if k = depOf emps j then 1 else 0 := by
      intro k _
      cases ha : ancIdx emps k j with
      | none =>
        have hkd : k ≠ depOf emps j := by
          intro he
          subst he
          simp [rootedAt, ha] at hrd
        rw [if_neg hkd]
        rfl
      | some a =>
        show ((List.range emps.length).filter (fun i => isRootAt emps i)).count a = _
        rcases Nat.lt_trichotomy k (depOf emps j) with hlt | heq | hgt
        · have hfalse := hmin k hlt
          have hra : isRootAt emps a = false := by
            simpa [rootedAt, ha] using hfalse
          have hnot : a ∉ (List.range emps.length).filter (fun i => isRootAt emps i) := by
            intro hmem
            rw [hmemr a] at hmem
            rw [hra] at hmem
            cases hmem.2
          rw [List.count_eq_zero_of_not_mem hnot, if_neg (Nat.ne_of_lt hlt)]
        · subst heq
          have hra : isRootAt emps a = true := by
            simpa [rootedAt, ha] using hrd
          have haN : a < emps.length := by
            rcases Nat.eq_zero_or_pos (depOf emps j) with h0 | hpos
            · rw [h0] at ha
              have hja : some j = some a := ha
              rw [← Option.some.inj hja]
              exact hj
            · obtain ⟨d', hd'⟩ : ∃ d', depOf emps j = d' + 1 :=
                ⟨depOf emps j - 1, by omega⟩
              rw [hd'] at ha
              exact ancIdx_lt emps d' j a ha
          have hmem : a ∈ (List.range emps.length).filter (fun i => isRootAt emps i) :=
            (hmemr a).mpr ⟨haN, hra⟩
          rw [List.count_eq_one_of_mem hnodup hmem, if_pos rfl]
        · have hnone := ancIdx_of_rooted_none emps j (depOf emps j) hrd k hgt
          rw [hnone] at ha
          cases ha
    rw [Finset.sum_congr rfl hsummand]
    rw [Finset.sum_ite_eq' (Finset.range (emps.length + 1)) (depOf emps j)
      (fun _ => (1 : Nat))]
    rw [if_pos (Finset.mem_range.mpr (by omega))]
  · rw [if_neg hj]
    have hsummand : ∀ k ∈ Finset.range (emps.length + 1),
        cntO (ancIdx emps k j)
          ((List.range emps.length).filter (fun i => isRootAt emps i)) = 0 := by
      intro k _
      cases k with
      | zero =>
        show ((List.range emps.length).filter (fun i => isRootAt emps i)).count j = 0
        apply List.count_eq_zero_of_not_mem
        intro hmem
        exact hj ((hmemr j).mp hmem).1
      | succ k' =>
        have h1 : ancIdx emps 1 j = none :=
          parentIdx_out_of_range emps j (le_of_not_lt hj)
        have h2 : ancIdx emps (k' + 1) j = none :=
          ancIdx_none_mono emps j 1 (k' + 1) (by omega) h1
        rw [h2]
        rfl
    rw [Finset.sum_congr rfl hsummand]
    simp

theorem genH_trace_sub (emps : List Employee) :
    ∀ (fuel : Nat) (level : List Nat) (st : Reports) (tr : List Nat) (st' : Reports),
      generateHierarchy emps fuel level st = some (tr, st') →
      (∀ i ∈ level, i < emps.length) → ∀ a ∈ tr, a < emps.length := by
  intro fuel
  induction fuel with
  | zero =>
    intro level
    induction level with
    | nil =>
      intro st tr st' h _ a ha
      rw [genH_nil] at h
      cases h
      cases ha
    | cons i rest ih =>
      intro st tr st' h hb a ha
      by_cases hsel : 0 < (selOf emps i).length
      · rw [genH_zero_pos emps i rest st hsel] at h
        cases h
      · rw [genH_cons_neg emps 0 i rest st hsel] at h
        cases hrc : generateHierarchy emps 0 rest st with
        | none => rw [hrc] at h; cases h
        | some q =>
          rw [hrc] at h
          cases h
          rcases List.mem_cons.mp ha with rfl | ha'
          · exact hb a (List.mem_cons_self a rest)
          · exact ih st q.1 q.2 hrc
              (fun b hbm => hb b (List.mem_cons_of_mem i hbm)) a ha'
  | succ f ihf =>
    intro level
    induction level with
    | nil =>
      intro st tr st' h _ a ha
      rw [genH_nil] at h
      cases h
      cases ha
    | cons i rest ih =>
      intro st tr st' h hb a ha
      by_cases hsel : 0 < (selOf emps i).length
      · rw [genH_cons_pos emps f i rest st hsel] at h
        cases hp : generateHierarchy emps f (selOf emps i) (st.set i (selOf emps i)) with
        | none => rw [hp] at h; cases h
        | some p =>
          rw [hp] at h
          have h2 : Option.map (fun q => (i :: p.1 ++ q.1, q.2))
              (generateHierarchy emps (f + 1) rest p.2) = some (tr, st') := h
          cases hq : generateHierarchy emps (f + 1) rest p.2 with
          | none => rw [hq] at h2; cases h2
          | some q =>
            rw [hq] at h2
            cases h2
            rcases List.mem_append.mp ha with ha' | ha'
            · rcases List.mem_cons.mp ha' with rfl | ha''
              · exact hb a (List.mem_cons_self a rest)
              · exact ihf (selOf emps i) (st.set i (selOf emps i)) p.1 p.2 hp
                  (fun b hbm => ((mem_selOf emps i b).mp hbm).1) a ha''
            · exact ih p.2 q.1 q.2 hq
                (fun b hbm => hb b (List.mem_cons_of_mem i hbm)) a ha'
      · rw [genH_cons_neg emps (f + 1) i rest st hsel] at h
        cases hrc : generateHierarchy emps (f + 1) rest st with
        | none => rw [hrc] at h; cases h
        | some q =>
          rw [hrc] at h
          cases h
          rcases List.mem_cons.mp ha with rfl | ha'
          · exact hb a (List.mem_cons_self a rest)
          · exact ih st q.1 q.2 hrc
              (fun b hbm => hb b (List.mem_cons_of_mem i hbm)) a ha'

/-- Outcome of a valid-forest construction: it succeeds, the visit
trace holds each roster index exactly once, and the final report table
maps each visited manager to its sorted selection and everyone else to
the empty list. -/
theorem mkStaff_built_spec (input : List Employee) (hv : ValidForest input) :
    ∃ (tr : List Nat) (reps : Reports), (mkStaff input).built = some (tr, reps)
      ∧ (∀ j, tr.count j = if j < (rosterOf input).length then 1 else 0)
      ∧ (∀ m, reps.getD m []
          = if m ∈ tr ∧ 0 < (selOf (rosterOf input) m).length
            then selOf (rosterOf input) m else [])
      ∧ reps.length = (rosterOf input).length := by
  obtain ⟨hu, hr⟩ := hv
  have hroots_sub : ∀ i ∈ (List.range (rosterOf input).length).filter
      (fun i => isRootAt (rosterOf input) i), i < (rosterOf input).length :=
    fun i hi => List.mem_range.mp (List.mem_filter.mp hi).1
  have hbounds : ∀ i ∈ (List.range (rosterOf input).length).filter
      (fun i => isRootAt (rosterOf input) i),
      i < (rosterOf input).length
      ∧ (rosterOf input).length + 1
        ≤ ((rosterOf input).length + 1) + depOf (rosterOf input) i :=
    fun i hi => ⟨hroots_sub i hi, Nat.le_add_right _ _⟩
  have hsome := genH_isSome (rosterOf input) hu hr ((rosterOf input).length + 1)
    ((List.range (rosterOf input).length).filter (fun i => isRootAt (rosterOf input) i))
    (List.replicate (rosterOf input).length []) hbounds
  cases hb : generateHierarchy (rosterOf input) ((rosterOf input).length + 1)
      ((List.range (rosterOf input).length).filter (fun i => isRootAt (rosterOf input) i))
      (List.replicate (rosterOf input).length []) with
  | none => rw [hb] at hsome; cases hsome
  | some pr =>
    have heq : generateHierarchy (rosterOf input) ((rosterOf input).length + 1)
        ((List.range (rosterOf input).length).filter
          (fun i => isRootAt (rosterOf input) i))
        (List.replicate (rosterOf input).length []) = some (pr.1, pr.2) := by
      rw [hb]
    refine ⟨pr.1, pr.2, ?_, ?_, ?_, ?_⟩
    · show generateHierarchy (rosterOf input) ((rosterOf input).length + 1)
        ((List.range (rosterOf input).length).filter
          (fun i => isRootAt (rosterOf input) i))
        (List.replicate (rosterOf input).length []) = some (pr.1, pr.2)
      exact heq
    · intro j
      rw [genH_count (rosterOf input) hu hr ((rosterOf input).length + 1) _ _ _ _ heq
        hroots_sub j]
      exact sum_cntO_roots (rosterOf input) hr j
    · intro m
      have hst := genH_state (rosterOf input) ((rosterOf input).length + 1) _ _ _ _ heq
        (List.length_replicate _ _) hroots_sub m
      rw [hst]
      have hrep : (List.replicate (rosterOf input).length ([] : List Nat)).getD m []
          = [] := by
        rw [List.getD_eq_getElem?_getD, List.getElem?_replicate]
        by_cases hm : m < (rosterOf input).length <;> simp [hm]
      rw [hrep]
    · rw [genH_length (rosterOf input) ((rosterOf input).length + 1) _ _ _ _ heq]
      exact List.length_replicate _ _

/-- C9: for every input whose manager graph is a valid forest (unique
ids, every managerId absent or resolving to a present id, no cycles —
equivalently, every manager chain reaches a root), the recursive
construction terminates and visits every roster employee exactly once
as a current node across all levels combined (the visit trace counts
each roster index once and contains nothing else). -/
theorem hierarchy_visits_each_once (input : List Employee) (hv : ValidForest input) :
    ∃ (tr : List Nat) (reps : Reports), (mkStaff input).built = some (tr, reps)
      ∧ ∀ j : Nat, tr.count j
          = if j < (mkStaff input).employees.length then 1 else 0 := by
  obtain ⟨tr, reps, h1, h2, _, _⟩ := mkStaff_built_spec input hv
  exact ⟨tr, reps, h1, h2⟩

/-- Witness for C9 on the scenario-B forest. -/
theorem hierarchy_visits_each_once_w :
    ∃ (tr : List Nat) (reps : Reports), (mkStaff scenarioB).built = some (tr, reps)
      ∧ ∀ j : Nat, tr.count j
          = if j < (mkStaff scenarioB).employees.length then 1 else 0 :=
  hierarchy_visits_each_once scenarioB (by decide)

/-- C2 (amended): for every input whose manager graph is a valid
forest, every employee whose managerId is present appears in the
reports list of exactly one roster index — the one holding the
employee whose id equals that managerId. -/
theorem reports_unique_under_valid_forest (input : List Employee) (hv : ValidForest input) :
    ∃ (tr : List Nat) (reps : Reports), (mkStaff input).built = some (tr, reps)
      ∧ ∀ (j : Nat) (m : Int), j < (mkStaff input).employees.length →
          (empAt (mkStaff input).employees j).manager = some m →
          ∃ i, i < (mkStaff input).employees.length
            ∧ idAt (mkStaff input).employees i = m
            ∧ j ∈ reps.getD i []
            ∧ ∀ i', j ∈ reps.getD i' [] → i' = i := by
  obtain ⟨hu, hr⟩ := hv
  obtain ⟨tr, reps, h1, hcount, hstate, hlen⟩ := mkStaff_built_spec input ⟨hu, hr⟩
  refine ⟨tr, reps, h1, ?_⟩
  intro j m hj hm
  have hj' : j < (rosterOf input).length := hj
  have hm' : (empAt (rosterOf input) j).manager = some m := hm
  have hpar : ∃ i, parentIdx (rosterOf input) j = some i := by
    cases hp : parentIdx (rosterOf input) j with
    | some i => exact ⟨i, rfl⟩
    | none =>
      exfalso
      obtain ⟨k0, _, hk0⟩ := hr j (List.mem_range.mpr hj')
      cases k0 with
      | zero =>
        rw [rootedAt_zero] at hk0
        simp [isRootAt, Employee.isOwner, hm'] at hk0
      | succ k' =>
        have h1' : ancIdx (rosterOf input) 1 j = none := hp
        have h2' := ancIdx_none_mono (rosterOf input) j 1 (k' + 1) (by omega) h1'
        simp [rootedAt, h2'] at hk0
  obtain ⟨i, hp⟩ := hpar
  have hiN : i < (rosterOf input).length := parentIdx_lt _ j i hp
  have hmi := (parentIdx_eq_some_iff _ hu j i).mp hp
  have hid : idAt (rosterOf input) i = m := by
    have h2 := hmi.2
    rw [hm'] at h2
    exact (Option.some.inj h2).symm
  have hjmem : j ∈ selOf (rosterOf input) i :=
    (mem_selOf_iff_parentIdx _ hu i j hiN).mpr hp
  have hitr : i ∈ tr := by
    have hc := hcount i
    rw [if_pos hiN] at hc
    exact List.count_pos_iff.mp (by omega)
  have hrepsi : reps.getD i [] = selOf (rosterOf input) i := by
    rw [hstate i, if_pos ⟨hitr, List.length_pos_of_mem hjmem⟩]
  refine ⟨i, hiN, hid, by rw [hrepsi]; exact hjmem, ?_⟩
  intro i' hji'
  have hcond : i' ∈ tr ∧ 0 < (selOf (rosterOf input) i').length := by
    by_contra hc
    rw [hstate i', if_neg hc] at hji'
    exact (List.not_mem_nil j) hji'
  have hji'' : j ∈ selOf (rosterOf input) i' := by
    rw [hstate i', if_pos hcond] at hji'
    exact hji'
  have hi'N : i' < (rosterOf input).length := by
    by_contra hbig
    have hc := hcount i'
    rw [if_neg hbig] at hc
    exact (List.count_eq_zero.mp hc) hcond.1
  have hp' : parentIdx (rosterOf input) j = some i' :=
    (mem_selOf_iff_parentIdx _ hu i' j hi'N).mp hji''
  rw [hp] at hp'
  exact (Option.some.inj hp').symm

/-- Witness for C2 on the scenario-B forest. -/
theorem reports_unique_under_valid_forest_w :
    ∃ (tr : List Nat) (reps : Reports), (mkStaff scenarioB).built = some (tr, reps)
      ∧ ∀ (j : Nat) (m : Int), j < (mkStaff scenarioB).employees.length →
          (empAt (mkStaff scenarioB).employees j).manager = some m →
          ∃ i, i < (mkStaff scenarioB).employees.length
            ∧ idAt (mkStaff scenarioB).employees i = m
            ∧ j ∈ reps.getD i []
            ∧ ∀ i', j ∈ reps.getD i' [] → i' = i :=
  reports_unique_under_valid_forest scenarioB (by decide)

/-- C6 (amended): an employee with a dangling managerId is present in
the sorted roster and counted by `totalSalary`, is never a root, and —
whenever the construction terminates — appears in no reports list.
The dangling reference itself is silently tolerated; construction can
still fail for reasons unrelated to it (see the counterexample). -/
theorem orphan_present_but_unreachable (input : List Employee) (e : Employee) (m : Int)
    (he : e ∈ input) (hm : e.manager = some m) (habs : ∀ f ∈ input, f.id ≠ m) :
    e ∈ (mkStaff input).employees
    ∧ (mkStaff input).totalSalary = some ((input.map (fun x => x.salary)).sum)
    ∧ (∀ j, j < (mkStaff input).employees.length →
        empAt (mkStaff input).employees j = e →
        j ∉ (mkStaff input).hierarchy
        ∧ ∀ (tr : List Nat) (reps : Reports), (mkStaff input).built = some (tr, reps) →
            ∀ i, j ∉ reps.getD i []) := by
  have hperm : (mkStaff input).employees.Perm input := by
    rw [mkStaff_employees]
    exact sortKey_perm _ input
  have hne : input ≠ [] := by
    intro h0
    rw [h0] at he
    cases he
  refine ⟨hperm.mem_iff.mpr he, totalSalary_mkStaff_eq input hne, ?_⟩
  intro j hj hje
  have hje' : empAt (rosterOf input) j = e := hje
  constructor
  · intro hmem
    have hmem' : j ∈ (List.range (rosterOf input).length).filter
        (fun i => isRootAt (rosterOf input) i) := hmem
    have hown := (List.mem_filter.mp hmem').2
    rw [isRootAt, hje'] at hown
    simp [Employee.isOwner, hm] at hown
  · intro tr reps hbuilt i hji
    have hbuilt' : generateHierarchy (rosterOf input) ((rosterOf input).length + 1)
        ((List.range (rosterOf input).length).filter
          (fun i => isRootAt (rosterOf input) i))
        (List.replicate (rosterOf input).length []) = some (tr, reps) := hbuilt
    have hroots_sub : ∀ a ∈ (List.range (rosterOf input).length).filter
        (fun i => isRootAt (rosterOf input) i), a < (rosterOf input).length :=
      fun a ha => List.mem_range.mp (List.mem_filter.mp ha).1
    have hst := genH_state (rosterOf input) ((rosterOf input).length + 1) _ _ _ _
      hbuilt' (List.length_replicate _ _) hroots_sub i
    rw [hst] at hji
    by_cases hcond : i ∈ tr ∧ 0 < (selOf (rosterOf input) i).length
    · rw [if_pos hcond] at hji
      have hiN : i < (rosterOf input).length :=
        genH_trace_sub (rosterOf input) ((rosterOf input).length + 1) _ _ _ _
          hbuilt' hroots_sub i hcond.1
      have hmemsel := (mem_selOf (rosterOf input) i j).mp hji
      have hmgr := hmemsel.2
      rw [hje', hm] at hmgr
      have hidm : idAt (rosterOf input) i = m := (Option.some.inj hmgr).symm
      have hmemi : empAt (rosterOf input) i ∈ (rosterOf input) := by
        rw [empAt, List.getD_eq_getElem _ _ hiN]
        exact List.getElem_mem hiN
      have hperm2 : (rosterOf input).Perm input := sortKey_perm _ input
      have hmemi' : empAt (rosterOf input) i ∈ input := hperm2.mem_iff.mp hmemi
      exact habs _ hmemi' hidm
    · rw [if_neg hcond] at hji
      have hrep : (List.replicate (rosterOf input).length ([] : List Nat)).getD i []
          = [] := by
        rw [List.getD_eq_getElem?_getD, List.getElem?_replicate]
        by_cases hmi : i < (rosterOf input).length <;> simp [hmi]
      rw [hrep] at hji
      exact (List.not_mem_nil j) hji

/-- Roster for the C6 witness: spec scenario E (a root plus an
employee whose managerId 99 matches no id). -/
def scenarioE : List Employee := [⟨1, "a", 10, none⟩, ⟨2, "b", 20, some 99⟩]

/-- Witness for C6 on the scenario-E roster. -/
theorem orphan_present_but_unreachable_w :
    (⟨2, "b", 20, some 99⟩ : Employee) ∈ (mkStaff scenarioE).employees
    ∧ (mkStaff scenarioE).totalSalary = some ((scenarioE.map (fun x => x.salary)).sum)
    ∧ (∀ j, j < (mkStaff scenarioE).employees.length →
        empAt (mkStaff scenarioE).employees j = ⟨2, "b", 20, some 99⟩ →
        j ∉ (mkStaff scenarioE).hierarchy
        ∧ ∀ (tr : List Nat) (reps : Reports),
            (mkStaff scenarioE).built = some (tr, reps) →
            ∀ i, j ∉ reps.getD i []) :=
  orphan_present_but_unreachable scenarioE ⟨2, "b", 20, some 99⟩ 99
    (by decide) (by decide) (by decide)

/-- Every `managerId` in the roster is absent or references the id of
some roster employee. -/
def ManagerRefsValid (emps : List Employee) : Prop :=
  ∀ j ∈ List.range emps.length, ∀ m : Int, (empAt emps j).manager = some m →
    ∃ i ∈ List.range emps.length, idAt emps i = m

/-- The manager relation has no cycles: no index is its own proper
ancestor along the manager chain. -/
def ManagerAcyclic (emps : List Employee) : Prop :=
  ∀ (j k : Nat), 0 < k → ancIdx emps k j ≠ some j

theorem ancIdx_add (emps : List Employee) (a b j : Nat) :
    ancIdx emps (a + b) j
      = match ancIdx emps a j with
        | none => none
        | some x => ancIdx emps b x := by
  induction b with
  | zero =>
    rw [Nat.add_zero]
    cases h : ancIdx emps a j with
    | none => rfl
    | some x => rfl
  | succ b ih =>
    rw [show a + (b + 1) = (a + b) + 1 from rfl, ancIdx_succ, ih]
    cases h : ancIdx emps a j with
    | none => rfl
    | some x => rfl

theorem ancIdx_cycle_iterate (emps : List Employee) (j k : Nat)
    (hk : ancIdx emps k j = some j) :
    ∀ t, ancIdx emps (t * k) j = some j := by
  intro t
  induction t with
  | zero => rw [Nat.zero_mul]; rfl
  | succ t ih =>
    rw [Nat.succ_mul, ancIdx_add emps (t * k) k j, ih]
    exact hk

/-- The chain-reaches-a-root encoding used by `ValidForest` says
exactly what the spec's wording says: under unique ids, "every
managerId is absent or references a present id, and the manager
relation is acyclic". -/
theorem allRooted_iff_refs_valid_acyclic (emps : List Employee) (hu : UniqueIds emps) :
    AllRooted emps ↔ ManagerRefsValid emps ∧ ManagerAcyclic emps := by
  constructor
  · intro hr
    constructor
    · intro j hj m hm
      rw [List.mem_range] at hj
      cases hp : parentIdx emps j with
      | none =>
        exfalso
        obtain ⟨k0, _, hk0⟩ := hr j (List.mem_range.mpr hj)
        cases k0 with
        | zero =>
          rw [rootedAt_zero] at hk0
          simp [isRootAt, Employee.isOwner, hm] at hk0
        | succ k' =>
          have h1 : ancIdx emps 1 j = none := hp
          have h2 := ancIdx_none_mono emps j 1 (k' + 1) (by omega) h1
          simp [rootedAt, h2] at hk0
      | some i =>
        have hmi := (parentIdx_eq_some_iff emps hu j i).mp hp
        refine ⟨i, List.mem_range.mpr hmi.1, ?_⟩
        have h2 := hmi.2
        rw [hm] at h2
        exact (Option.some.inj h2).symm
    · intro j k hk hcy
      have hjn : j < emps.length := by
        obtain ⟨k', hk'⟩ : ∃ k', k = k' + 1 := ⟨k - 1, by omega⟩
        rw [hk'] at hcy
        exact ancIdx_lt emps k' j j hcy
      obtain ⟨hrd, _, _⟩ := depOf_spec emps hr j hjn
      have hiter := ancIdx_cycle_iterate emps j k hcy (depOf emps j + 1)
      have hstep : depOf emps j + 1 ≤ (depOf emps j + 1) * k :=
        Nat.le_mul_of_pos_right _ hk
      have hnone := ancIdx_of_rooted_none emps j (depOf emps j) hrd
        ((depOf emps j + 1) * k) (by omega)
      rw [hiter] at hnone
      cases hnone
  · rintro ⟨hval, hacy⟩
    intro j hj
    rw [List.mem_range] at hj
    by_contra hnone
    push_neg at hnone
    have hnone' : ∀ k ∈ List.range (emps.length + 1), rootedAt emps k j = false := by
      intro k hk
      exact Bool.eq_false_iff.mpr (hnone k hk)
    have hchain : ∀ k, k ≤ emps.length → ∃ a, ancIdx emps k j = some a ∧ a < emps.length := by
      intro k
      induction k with
      | zero => intro _; exact ⟨j, rfl, hj⟩
      | succ k' ih =>
        intro hk'
        obtain ⟨a, ha, haN⟩ := ih (by omega)
        have hrfa : rootedAt emps k' j = isRootAt emps a := by
          simp [rootedAt, ha]
        have hnr : isRootAt emps a = false := by
          rw [← hrfa]
          exact hnone' k' (List.mem_range.mpr (by omega))
        have hmgr : ∃ m, (empAt emps a).manager = some m := by
          rw [isRootAt, Employee.isOwner] at hnr
          cases hmm : (empAt emps a).manager with
          | none => rw [hmm] at hnr; cases hnr
          | some m => exact ⟨m, rfl⟩
        obtain ⟨m, hm⟩ := hmgr
        obtain ⟨i, hiR, hidm⟩ := hval a (List.mem_range.mpr haN) m hm
        rw [List.mem_range] at hiR
        have hp : parentIdx emps a = some i :=
          (parentIdx_eq_some_iff emps hu a i).mpr ⟨hiR, by rw [hm, hidm]⟩
        have hstep : ancIdx emps (k' + 1) j = parentIdx emps a := by
          rw [ancIdx_succ, ha]
        exact ⟨i, by rw [hstep, hp], hiR⟩
    have hg : ∀ k : Fin (emps.length + 1),
        (ancIdx emps k.val j).getD 0 < emps.length := by
      intro k
      obtain ⟨a, ha, haN⟩ := hchain k.val (Nat.lt_succ_iff.mp k.isLt)
      rw [ha]
      simpa using haN
    have hcard : Fintype.card (Fin emps.length) < Fintype.card (Fin (emps.length + 1)) := by
      simp [Fintype.card_fin]
    obtain ⟨x, y, hxy, hfeq⟩ := Fintype.exists_ne_map_eq_of_card_lt
      (fun k : Fin (emps.length + 1) =>
        (⟨(ancIdx emps k.val j).getD 0, hg k⟩ : Fin emps.length)) hcard
    have hgeq : (ancIdx emps x.val j).getD 0 = (ancIdx emps y.val j).getD 0 := by
      simpa using congrArg Fin.val hfeq
    have key : ∀ p q : Fin (emps.length + 1), p.val < q.val →
        (ancIdx emps p.val j).getD 0 = (ancIdx emps q.val j).getD 0 → False := by
      intro p q hpq heq
      obtain ⟨a, hap, _⟩ := hchain p.val (Nat.lt_succ_iff.mp p.isLt)
      obtain ⟨b, hbq, _⟩ := hchain q.val (Nat.lt_succ_iff.mp q.isLt)
      rw [hap, hbq] at heq
      simp at heq
      subst heq
      have hq' : q.val = p.val + (q.val - p.val) := by omega
      have hcomp : ancIdx emps (p.val + (q.val - p.val)) j
          = ancIdx emps (q.val - p.val) a := by
        rw [ancIdx_add emps p.val (q.val - p.val) j, hap]
      have hcyc : ancIdx emps (q.val - p.val) a = some a := by
        rw [← hcomp, ← hq']
        exact hbq
      exact hacy a (q.val - p.val) (by omega) hcyc
    rcases lt_trichotomy x.val y.val with hlt | heqv | hgt
    · exact key x y hlt hgeq
    · exact hxy (Fin.ext heqv)
    · exact key y x hgt hgeq.symm

theorem lexLt_trichotomy (a : List Char) :
    ∀ b, a = b ∨ lexLt a b = true ∨ lexLt b a = true := by
  induction a with
  | nil =>
    intro b
    cases b with
    | nil => left; rfl
    | cons y ys => right; left; rfl
  | cons x xs ih =>
    intro b
    cases b with
    | nil => right; right; rfl
    | cons y ys =>
      rcases lt_trichotomy x y with hxy | heq | hyx
      · right; left; simp [lexLt, hxy]
      · subst heq
        rcases ih ys with h | h | h
        · left; rw [h]
        · right; left; simp [lexLt, lt_irrefl, h]
        · right; right; simp [lexLt, lt_irrefl, h]
      · right; right; simp [lexLt, hyx]

theorem strLt_eq_of_not_lt (a b : String) (h1 : strLt a b = false)
    (h2 : strLt b a = false) : a = b := by
  rcases lexLt_trichotomy a.data b.data with h | h | h
  · exact String.ext h
  · rw [strLt, h] at h1; cases h1
  · rw [strLt, h] at h2; cases h2

/-- Two lists that are both sorted by key and have identical key-fibres
(the stability data) are equal: a stable sort by a given key is unique.
This justifies embedding Python's Timsort, a stable sort, as the
stable insertion sort `sortKey`. -/
theorem sorted_filter_eq_unique {α : Type} (f : α → String) :
    ∀ (s t : List α),
      s.Pairwise (fun a b => strLt (f b) (f a) = false) →
      t.Pairwise (fun a b => strLt (f b) (f a) = false) →
      (∀ nm, s.filter (fun a => f a == nm) = t.filter (fun a => f a == nm)) →
      s = t := by
  intro s
  induction s with
  | nil =>
    intro t _ _ hf
    cases t with
    | nil => rfl
    | cons y ts =>
      exfalso
      have h := hf (f y)
      simp [List.filter_cons] at h
  | cons x ss ih =>
    intro t hs ht hf
    cases t with
    | nil =>
      exfalso
      have h := hf (f x)
      simp [List.filter_cons] at h
    | cons y ts =>
      rw [List.pairwise_cons] at hs ht
      have hkey : f x = f y := by
        by_contra hne
        have hfx := hf (f x)
        have hxmem : x ∈ (y :: ts).filter (fun a => f a == f x) := by
          rw [← hfx]
          exact List.mem_filter.mpr ⟨List.mem_cons_self x ss, by simp⟩
        have hxts : x ∈ ts := by
          rcases List.mem_cons.mp (List.mem_filter.mp hxmem).1 with h' | h'
          · exact absurd (by rw [h']) hne
          · exact h'
        have hfy := hf (f y)
        have hymem : y ∈ (x :: ss).filter (fun a => f a == f y) := by
          rw [hfy]
          exact List.mem_filter.mpr ⟨List.mem_cons_self y ts, by simp⟩
        have hyss : y ∈ ss := by
          rcases List.mem_cons.mp (List.mem_filter.mp hymem).1 with h' | h'
          · exact absurd (by rw [h']) hne
          · exact h'
        have h1 : strLt (f y) (f x) = false := hs.1 y hyss
        have h2 : strLt (f x) (f y) = false := ht.1 x hxts
        exact hne (strLt_eq_of_not_lt (f x) (f y) h2 h1)
      have hxy : x = y := by
        have hfx := hf (f x)
        rw [List.filter_cons, List.filter_cons] at hfx
        have hc1 : (f x == f x) = true := by simp
        have hc2 : (f y == f x) = true := by simp [hkey]
        rw [if_pos hc1, if_pos hc2] at hfx
        exact (List.cons_eq_cons.mp hfx).1
      subst hxy
      have hftails : ∀ nm, ss.filter (fun a => f a == nm)
          = ts.filter (fun a => f a == nm) := by
        intro nm
        have h := hf nm
        rw [List.filter_cons, List.filter_cons] at h
        by_cases hc : (f x == nm) = true
        · rw [if_pos hc, if_pos hc] at h
          exact (List.cons_eq_cons.mp h).2
        · have hc' : (f x == nm) = false := Bool.eq_false_iff.mpr hc
          rw [hc'] at h
          simpa using h
      exact congrArg (List.cons x) (ih ts hs.2 ht.2 hftails)

/-- Any output that is sorted by key and preserves every key-fibre of
`l` (what any stable sort of `l` by this key produces) is `sortKey f l`. -/
theorem sortKey_stable_unique {α : Type} (f : α → String) (l s : List α)
    (hsort : s.Pairwise (fun a b => strLt (f b) (f a) = false))
    (hfilt : ∀ nm, s.filter (fun a => f a == nm) = l.filter (fun a => f a == nm)) :
    s = sortKey f l :=
  sorted_filter_eq_unique f s (sortKey f l) hsort (sortKey_pairwise f l)
    (fun nm => (hfilt nm).trans (sortKey_filter f l nm).symm)

/-- Fuel monotonicity: a run of the recursion that completes within
some depth bound returns the same outcome under any larger bound, so
`none` at fuel `length + 1` (the bound used by `mkStaff`) reflects a
genuinely unbounded recursion, not an artifact of the chosen fuel. -/
theorem genH_mono (emps : List Employee) :
    ∀ (f f' : Nat), f ≤ f' →
      ∀ (level : List Nat) (st : Reports) (r : List Nat × Reports),
        generateHierarchy emps f level st = some r →
        generateHierarchy emps f' level st = some r := by
  intro f
  induction f with
  | zero =>
    intro f' _ level
    induction level with
    | nil =>
      intro st r h
      rw [genH_nil] at h
      rw [genH_nil]
      exact h
    | cons i rest ih =>
      intro st r h
      by_cases hsel : 0 < (selOf emps i).length
      · rw [genH_zero_pos emps i rest st hsel] at h
        cases h
      · rw [genH_cons_neg emps 0 i rest st hsel] at h
        rw [genH_cons_neg emps f' i rest st hsel]
        cases hrc : generateHierarchy emps 0 rest st with
        | none => rw [hrc] at h; cases h
        | some q =>
          rw [hrc] at h
          rw [ih st q hrc]
          exact h
  | succ g ihg =>
    intro f' hff level
    obtain ⟨g', rfl⟩ : ∃ g', f' = g' + 1 := ⟨f' - 1, by omega⟩
    have hgg : g ≤ g' := by omega
    induction level with
    | nil =>
      intro st r h
      rw [genH_nil] at h
      rw [genH_nil]
      exact h
    | cons i rest ih =>
      intro st r h
      by_cases hsel : 0 < (selOf emps i).length
      · rw [genH_cons_pos emps g i rest st hsel] at h
        rw [genH_cons_pos emps g' i rest st hsel]
        cases hp : generateHierarchy emps g (selOf emps i) (st.set i (selOf emps i)) with
        | none => rw [hp] at h; cases h
        | some p =>
          rw [hp] at h
          have h2 : Option.map (fun q => (i :: p.1 ++ q.1, q.2))
              (generateHierarchy emps (g + 1) rest p.2) = some r := h
          rw [ihg g' hgg (selOf emps i) (st.set i (selOf emps i)) p hp]
          show Option.map (fun q => (i :: p.1 ++ q.1, q.2))
            (generateHierarchy emps (g' + 1) rest p.2) = some r
          cases hq : generateHierarchy emps (g + 1) rest p.2 with
          | none => rw [hq] at h2; cases h2
          | some q =>
            rw [hq] at h2
            rw [ih p.2 q hq]
            exact h2
      · rw [genH_cons_neg emps (g + 1) i rest st hsel] at h
        rw [genH_cons_neg emps (g' + 1) i rest st hsel]
        cases hrc : generateHierarchy emps (g + 1) rest st with
        | none => rw [hrc] at h; cases h
        | some q =>
          rw [hrc] at h
          rw [ih st q hrc]
          exact h

theorem genHS_cons_pos (emps : List Employee) (reps : Reports) (f i : Nat)
    (rest : List Nat) (d t : Nat) (hrep : 0 < (reps.getD i []).length) :
    generateHierarchyString emps reps (f + 1) (i :: rest) d t
      = (generateHierarchyString emps reps f (reps.getD i []) (d + t) t).bind fun sub =>
          (generateHierarchyString emps reps (f + 1) rest d t).map fun r =>
            String.mk (List.replicate d ' ') ++ nameAt emps i ++ "\n" ++ sub ++ r := by
  show generateHierarchyStringLevel emps reps (generateHierarchyString emps reps f)
    (i :: rest) d t = _
  simp only [generateHierarchyStringLevel]
  rw [if_pos hrep]
  rfl

theorem genHS_zero_pos (emps : List Employee) (reps : Reports) (i : Nat)
    (rest : List Nat) (d t : Nat) (hrep : 0 < (reps.getD i []).length) :
    generateHierarchyString emps reps 0 (i :: rest) d t = none := by
  show generateHierarchyStringLevel emps reps (fun _ _ _ => none) (i :: rest) d t = none
  simp only [generateHierarchyStringLevel]
  rw [if_pos hrep]
  rfl

theorem genHS_cons_neg (emps : List Employee) (reps : Reports) (fuel i : Nat)
    (rest : List Nat) (d t : Nat) (hrep : ¬ 0 < (reps.getD i []).length) :
    generateHierarchyString emps reps fuel (i :: rest) d t
      = (generateHierarchyString emps reps fuel rest d t).map fun r =>
          String.mk (List.replicate d ' ') ++ nameAt emps i ++ "\n" ++ r := by
  cases fuel with
  | zero =>
    show generateHierarchyStringLevel emps reps (fun _ _ _ => none) (i :: rest) d t = _
    simp only [generateHierarchyStringLevel]
    rw [if_neg hrep]
    rfl
  | succ f =>
    show generateHierarchyStringLevel emps reps (generateHierarchyString emps reps f)
      (i :: rest) d t = _
    simp only [generateHierarchyStringLevel]
    rw [if_neg hrep]
    rfl

theorem genHS_isSome (emps : List Employee) (hu : UniqueIds emps) (hr : AllRooted emps)
    (reps : Reports)
    (hreps : ∀ m, 0 < (reps.getD m []).length → reps.getD m [] = selOf emps m) :
    ∀ (fuel : Nat) (level : List Nat) (d t : Nat),
      (∀ i ∈ level, i < emps.length ∧ emps.length + 1 ≤ fuel + depOf emps i) →
      (generateHierarchyString emps reps fuel level d t).isSome = true := by
  intro fuel
  induction fuel with
  | zero =>
    intro level
    induction level with
    | nil => intro d t _; rw [genHS_nil]; rfl
    | cons i rest ih =>
      intro d t h
      by_cases hrep : 0 < (reps.getD i []).length
      · obtain ⟨hi, hd⟩ := h i (List.mem_cons_self i rest)
        have hb := (depOf_spec emps hr i hi).2.2
        omega
      · rw [genHS_cons_neg emps reps 0 i rest d t hrep]
        have hrest := ih d t (fun a ha => h a (List.mem_cons_of_mem i ha))
        cases hrc : generateHierarchyString emps reps 0 rest d t with
        | none => rw [hrc] at hrest; cases hrest
        | some q => rfl
  | succ f ihf =>
    intro level
    induction level with
    | nil => intro d t _; rw [genHS_nil]; rfl
    | cons i rest ih =>
      intro d t h
      by_cases hrep : 0 < (reps.getD i []).length
      · rw [genHS_cons_pos emps reps f i rest d t hrep]
        obtain ⟨hi, hd⟩ := h i (List.mem_cons_self i rest)
        have hrepi := hreps i hrep
        have hsub : (generateHierarchyString emps reps f (reps.getD i [])
            (d + t) t).isSome = true := by
          apply ihf
          intro a ha
          rw [hrepi] at ha
          obtain ⟨hstep, hbnd⟩ := depOf_child emps hu hr i a hi ha
          have han : a < emps.length := ((mem_selOf emps i a).mp ha).1
          exact ⟨han, by omega⟩
        cases hp : generateHierarchyString emps reps f (reps.getD i []) (d + t) t with
        | none => rw [hp] at hsub; cases hsub
        | some sub =>
          show (Option.map _ (generateHierarchyString emps reps (f + 1) rest d t)).isSome
            = true
          have hrest := ih d t (fun a ha => h a (List.mem_cons_of_mem i ha))
          cases hq : generateHierarchyString emps reps (f + 1) rest d t with
          | none => rw [hq] at hrest; cases hrest
          | some q => rfl
      · rw [genHS_cons_neg emps reps (f + 1) i rest d t hrep]
        have hrest := ih d t (fun a ha => h a (List.mem_cons_of_mem i ha))
        cases hrc : generateHierarchyString emps reps (f + 1) rest d t with
        | none => rw [hrc] at hrest; cases hrest
        | some q => rfl

/-- On any valid forest, `render()` also terminates (the report chains
have the same bounded depth as the construction's recursion). -/
theorem render_isSome_of_validForest (input : List Employee) (hv : ValidForest input) :
    (mkStaff input).render.isSome = true := by
  obtain ⟨tr, reps, hbuilt, hcount, hstate, hlen⟩ := mkStaff_built_spec input hv
  obtain ⟨hu, hr⟩ := hv
  have hreps : ∀ m, 0 < (reps.getD m []).length →
      reps.getD m [] = selOf (rosterOf input) m := by
    intro m hpos
    by_cases hc : m ∈ tr ∧ 0 < (selOf (rosterOf input) m).length
    · rw [hstate m, if_pos hc]
    · rw [hstate m, if_neg hc] at hpos
      simp at hpos
  rw [Staff.render, hbuilt]
  show (generateHierarchyString (mkStaff input).employees reps
    ((mkStaff input).employees.length + 1) (mkStaff input).hierarchy 0 2).isSome = true
  apply genHS_isSome (rosterOf input) hu hr reps hreps
  intro i hi
  have hi' : i < (rosterOf input).length :=
    List.mem_range.mp (List.mem_filter.mp hi).1
  exact ⟨hi', Nat.le_add_right _ _⟩
